import Mathlib

/-!
Shallow embedding of `src/log-parser.ts` (gooseherd): the run-transcript
parser that turns a raw agent log into a list of typed `RunEvent`s.

Modelling conventions:
* JS strings are modelled as `List Char` internally (one entry per Unicode
  scalar; the UTF-16 code-unit granularity of JS `.length`/`.slice` agrees
  with scalar counts on the basic-multilingual-plane text these logs carry).
* JS regexes are translated to explicit deterministic matchers: each regex
  used by the source is anchored and its quantifiers never need
  backtracking (a greedy `\S+`/`[a-z_]+`/`\w+`/`\s+` run followed by a
  literal whose first character is excluded from the run's class), so each
  is equivalent to maximal-munch scanning.
* JS numbers are modelled as `ℚ`; `Math.round` as `⌊x + 1/2⌋`.
* `undefined`/absent fields are modelled as `Option`, JS truthiness by
  explicit emptiness tests.
* The unbounded `while` loops of the source are modelled with an explicit
  fuel parameter; fuel exhaustion returns the same value as the loop's
  normal boundary exit, and each public entry point passes `lines.length`
  fuel, which is provably sufficient (see the cursor-advance theorems).
-/

namespace Gooseherd

set_option maxRecDepth 8000

/-- JS `\s` whitespace test, restricted to the ASCII whitespace characters
(space, tab, newline, carriage return, vertical tab, form feed) plus
no-break space; the logs contain no exotic Unicode spaces. -/
def isSpaceJS (c : Char) : Bool :=
  c = ' ' || c = '\t' || c = '\n' || c = '\r' || c = '\x0b' || c = '\x0c' || c = ' '

/-- JS `\d`. -/
def isDigitChar (c : Char) : Bool := '0' ≤ c && c ≤ '9'

/-- `10 ^ n` as a plain structural recursion (kernel-evaluable). -/
def powTenNat : Nat → Nat
  | 0 => 1
  | n + 1 => 10 * powTenNat n

/-- JS `\w` : `[A-Za-z0-9_]`. -/
def isWordChar (c : Char) : Bool :=
  ('a' ≤ c && c ≤ 'z') || ('A' ≤ c && c ≤ 'Z') || isDigitChar c || c = '_'

/-- Character class `[a-z_]` of `TOOL_PARAM_RE`. -/
def isParamKeyChar (c : Char) : Bool := ('a' ≤ c && c ≤ 'z') || c = '_'

/-- The box-drawing dash `─` used by tool-call headers. -/
def dashChar : Char := '─'

/-- Drop a literal prefix, returning the rest on success. -/
def dropLit : List Char → List Char → Option (List Char)
  | [], cs => some cs
  | _ :: _, [] => none
  | p :: ps, c :: cs => if c = p then dropLit ps cs else none

/-- Maximal nonempty run of characters satisfying `p` (greedy `X+`). -/
def span1 (p : Char → Bool) (cs : List Char) : Option (List Char × List Char) :=
  match cs.span p with
  | (run, rest) => if run.isEmpty then none else some (run, rest)

/-- Is `pre` a prefix of `cs`? -/
def isPrefixList : List Char → List Char → Bool
  | [], _ => true
  | _ :: _, [] => false
  | p :: ps, c :: cs => c = p && isPrefixList ps cs

/-- JS `String.prototype.includes`: substring occurrence test. -/
def containsSub (needle : List Char) : List Char → Bool
  | [] => isPrefixList needle []
  | hay@(_ :: t) => isPrefixList needle hay || containsSub needle t

/-- First index at which `needle` occurs in `hay` (JS `indexOf`). -/
def indexOfSub (needle : List Char) : List Char → Option Nat
  | [] => if isPrefixList needle [] then some 0 else none
  | hay@(_ :: t) =>
    if isPrefixList needle hay then some 0
    else (indexOfSub needle t).map (· + 1)

/-- Accumulator worker for `splitOnChar`: `cur` is the current chunk
(reversed), `acc` the finished chunks (reversed). -/
def splitOnCharAux (sep : Char) :
    List Char → List Char → List (List Char) → List (List Char)
  | [], cur, acc => (cur.reverse :: acc).reverse
  | c :: rest, cur, acc =>
    if c = sep then splitOnCharAux sep rest [] (cur.reverse :: acc)
    else splitOnCharAux sep rest (c :: cur) acc

/-- Split on a separator character; models JS `split` with a one-char
separator (`"".split(x) = [""]`). -/
def splitOnChar (sep : Char) (cs : List Char) : List (List Char) :=
  splitOnCharAux sep cs [] []

/-- Join with a separator character (JS `Array.prototype.join`). -/
def intercalateChar (sep : Char) : List (List Char) → List Char
  | [] => []
  | [l] => l
  | l :: ls => l ++ sep :: intercalateChar sep ls

/-- JS `String.prototype.trim` on both ends. -/
def jsTrim (cs : List Char) : List Char :=
  ((cs.dropWhile isSpaceJS).reverse.dropWhile isSpaceJS).reverse

/-- `TOOL_HEADER_RE = /^─── (\S+) \| (\S+) ─+$/`: returns the captured
tool and extension tokens. -/
def toolHeaderMatch (cs : List Char) : Option (List Char × List Char) := do
  let rest ← dropLit [dashChar, dashChar, dashChar, ' '] cs
  let (w1, rest) ← span1 (fun c => !isSpaceJS c) rest
  let rest ← dropLit [' ', '|', ' '] rest
  let (w2, rest) ← span1 (fun c => !isSpaceJS c) rest
  let rest ← dropLit [' '] rest
  if rest ≠ [] && rest.all (· = dashChar) then some (w1, w2) else none

def toolHeaderTest (cs : List Char) : Bool := (toolHeaderMatch cs).isSome

/-- `SHELL_CMD_RE = /^\$ (.+)$/`. -/
def shellCmdMatch (cs : List Char) : Option (List Char) := do
  let rest ← dropLit ['$', ' '] cs
  if rest ≠ [] then some rest else none

/-- `SESSION_START_RE = /^starting session \| provider: (\S+) model: (.+)$/`. -/
def sessionStartMatch (cs : List Char) : Option (List Char × List Char) := do
  let rest ← dropLit "starting session | provider: ".data cs
  let (w1, rest) ← span1 (fun c => !isSpaceJS c) rest
  let rest ← dropLit " model: ".data rest
  if rest ≠ [] then some (w1, rest) else none

/-- `ANNOTATED_START_RE = /^Annotated\s*\{/` (prefix test). -/
def annotatedStartTest (cs : List Char) : Bool :=
  match dropLit "Annotated".data cs with
  | none => false
  | some rest =>
    match rest.dropWhile isSpaceJS with
    | '\x7b' :: _ => true
    | _ => false

/-- `APP_RUN_RE = /^\w+ run ([\w-]+)$/` (used only as a test). -/
def appRunTest (cs : List Char) : Bool :=
  (do
    let (_, rest) ← span1 isWordChar cs
    let rest ← dropLit " run ".data rest
    if rest ≠ [] && rest.all (fun c => isWordChar c || c = '-') then some () else none).isSome

/-- `TOOL_PARAM_RE = /^([a-z_]+): (.+)$/`. -/
def toolParamMatch (cs : List Char) : Option (List Char × List Char) := do
  let (k, rest) ← span1 isParamKeyChar cs
  let rest ← dropLit [':', ' '] rest
  if rest ≠ [] then some (k, rest) else none

/-- `SESSION_META_RE = /^\s+(session id|working directory): .+$/`. -/
def sessionMetaTest (cs : List Char) : Bool :=
  (do
    let (_, rest) ← span1 isSpaceJS cs
    let rest ←
      match dropLit "session id".data rest with
      | some r => some r
      | none => dropLit "working directory".data rest
    let rest ← dropLit [':', ' '] rest
    if rest ≠ [] then some () else none).isSome

/-- Noise pattern `/^---\s*loading\s+\.bash_profile/`. -/
def noiseBashProfile (cs : List Char) : Bool :=
  (do
    let rest ← dropLit "---".data cs
    let rest := rest.dropWhile isSpaceJS
    let rest ← dropLit "loading".data rest
    let (_, rest) ← span1 isSpaceJS rest
    let _ ← dropLit ".bash_profile".data rest
    some ()).isSome

/-- Noise pattern `/^zsh:\d+: command not found:/`. -/
def noiseZsh (cs : List Char) : Bool :=
  (do
    let rest ← dropLit "zsh:".data cs
    let (_, rest) ← span1 isDigitChar rest
    let _ ← dropLit ": command not found:".data rest
    some ()).isSome

/-- `NOISE_PATTERNS` disjunction (`isNoiseLine`). -/
def isNoiseLine (cs : List Char) : Bool :=
  noiseBashProfile cs ||
  containsSub "All secrets loaded from cache".data cs ||
  (match cs with | c :: _ => c = '🎊' | [] => false) ||
  cs.all isSpaceJS ||
  noiseZsh cs

/-- One alternative of `ANNOTATED_LEAK_RE`: literal, then `\s*`, then a
second literal (prefix test). -/
def leakAlt (a b : String) (cs : List Char) : Bool :=
  (do
    let rest ← dropLit a.data cs
    let _ ← dropLit b.data (rest.dropWhile isSpaceJS)
    some ()).isSome

/-- `ANNOTATED_LEAK_RE`: leading `\s*`, then one of the Rust-Debug field
fragments that indicate leaked Annotated block content. -/
def annotatedLeakTest (cs : List Char) : Bool :=
  let r := cs.dropWhile isSpaceJS
  leakAlt "raw:" "Text(" r ||
  leakAlt "RawTextContent" "\x7b" r ||
  leakAlt "annotations:" "Some" r ||
  leakAlt "annotations:" "None" r ||
  leakAlt "Annotations" "\x7b" r ||
  leakAlt "audience:" "Some(" r ||
  leakAlt "priority:" "Some(" r ||
  leakAlt "meta:" "None" r

/-- Characters of the debris class `/^["'),}\]]/` in `flushThinking`. -/
def debrisChars : List Char := ['"', '\'', ')', ',', '\x7d', ']']

/-- Debris test applied to the flushed thinking text: starts with a stray
closing delimiter, or with a `text: "` field prefix. -/
def debrisTest (cs : List Char) : Bool :=
  (match cs with
   | c :: _ => debrisChars.contains c
   | [] => false) ||
  (do
    let rest ← dropLit "text:".data cs
    let _ ← dropLit ['"'] (rest.dropWhile isSpaceJS)
    some ()).isSome

/-! ## Annotated block scanning (`skipAnnotatedBlock`, `extractAnnotatedResult`) -/

/-- Character scan of one line in `skipAnnotatedBlock`/`extractAnnotatedResult`:
threads the previous character, the in-quote flag and the running depth.
A double quote toggles the quote flag unless the immediately preceding
character is a backslash; braces count toward depth only outside quotes. -/
def scanChars : List Char → Option Char → Bool → Int → Int
  | [], _, _, depth => depth
  | c :: rest, prev, inQuote, depth =>
    if c = '"' && (match prev with | none => true | some p => p ≠ '\\') then
      scanChars rest (some c) (!inQuote) depth
    else if !inQuote && c = '\x7b' then
      scanChars rest (some c) inQuote (depth + 1)
    else if !inQuote && c = '\x7d' then
      scanChars rest (some c) inQuote (depth - 1)
    else
      scanChars rest (some c) inQuote depth

/-- Fuelled loop of `skipAnnotatedBlock`. Fuel exhaustion returns the
current index, the same value the `i ≥ lines.length` exit returns. -/
def skipLoop (lines : List (List Char)) : Nat → Nat → Int → Nat
  | 0, i, _ => i
  | fuel + 1, i, depth =>
    if i < lines.length && depth > 0 then
      let line := lines.getD i []
      if toolHeaderTest line then i
      else skipLoop lines fuel (i + 1) (scanChars line none false depth)
    else i

/-- `skipAnnotatedBlock(lines, startIndex)`: scan forward from the line
after the block opener, counting quote-aware brace depth, aborting at a
tool-call header. -/
def skipAnnotatedBlock (lines : List (List Char)) (startIndex : Nat) : Nat :=
  skipLoop lines lines.length (startIndex + 1) 1

/-- Fuelled collecting loop of `extractAnnotatedResult`: same scan as
`skipLoop` but also gathers every scanned line (in reverse accumulation). -/
def extractLoop (lines : List (List Char)) :
    Nat → Nat → Int → List (List Char) → Nat × List (List Char)
  | 0, i, _, acc => (i, acc.reverse)
  | fuel + 1, i, depth, acc =>
    if i < lines.length && depth > 0 then
      let line := lines.getD i []
      if toolHeaderTest line then (i, acc.reverse)
      else extractLoop lines fuel (i + 1) (scanChars line none false depth) (line :: acc)
    else (i, acc.reverse)

/-- The `blob.match(/text:\s*"(\{.*?\})"/s)` step, part 1: find the first
position matching `text:` `\s*` `"` followed by `{`, returning the suffix
that starts at that `{`. -/
def findTextJsonStart : List Char → Option (List Char)
  | [] => none
  | cs@(_ :: t) =>
    match
      (do
        let rest ← dropLit "text:".data cs
        let rest := rest.dropWhile isSpaceJS
        let rest ← dropLit ['"'] rest
        match rest with
        | '\x7b' :: _ => some rest
        | _ => none) with
    | some r => some r
    | none => findTextJsonStart t

/-- Part 2: the lazy `.*?` of the capture group — take characters up to and
including the first `}` that is immediately followed by `"`. -/
def takeToCloseAux : List Char → List Char → Option (List Char)
  | '\x7d' :: '"' :: _, acc => some (('\x7d' :: acc).reverse)
  | c :: rest, acc => takeToCloseAux rest (c :: acc)
  | [], _ => none

/-- `blob.match(/text:\s*"(\{.*?\})"/s)`: the captured group, spanning
newlines, with the lazy quantifier stopping at the first `}"`. If the
first `text:\s*"{` position has no closing `}"` after it, no later
position can have one either, so the whole match fails. -/
def findTextJson (blob : List Char) : Option (List Char) :=
  match findTextJsonStart blob with
  | none => none
  | some ('\x7b' :: body) => takeToCloseAux body ['\x7b']
  | some _ => none

/-- `.replace(/\\n/g, "\n")`: left-to-right non-overlapping replacement. -/
def unescapeNewlines : List Char → List Char
  | '\\' :: 'n' :: rest => '\n' :: unescapeNewlines rest
  | c :: rest => c :: unescapeNewlines rest
  | [] => []

/-- `.replace(/\\"/g, '"')`. -/
def unescapeQuotes : List Char → List Char
  | '\\' :: '"' :: rest => '"' :: unescapeQuotes rest
  | c :: rest => c :: unescapeQuotes rest
  | [] => []

/-- The Rust-debug unescape applied to the captured JSON text. -/
def unescapeRust (cs : List Char) : List Char :=
  unescapeQuotes (unescapeNewlines cs)

/-! ## JSON values and `JSON.parse` -/

/-- JSON values as produced by `JSON.parse`. Numbers are modelled as `ℚ`
(exact, rather than binary doubles; the values appearing in these logs are
far from any rounding boundary). Objects keep first-insertion order with
later duplicate keys overwriting in place, mirroring JS objects. -/
inductive Json where
  | null : Json
  | bool (b : Bool) : Json
  | num (q : ℚ) : Json
  | str (s : List Char) : Json
  | arr (elems : List Json) : Json
  | obj (fields : List (List Char × Json)) : Json

/-- JS object property write: update the value in place if the key exists,
else append. -/
def jsInsert (key : List Char) (v : Json) :
    List (List Char × Json) → List (List Char × Json)
  | [] => [(key, v)]
  | (k, w) :: rest =>
    if k = key then (k, v) :: rest else (k, w) :: jsInsert key v rest

/-- JSON whitespace (strict JSON: space, tab, newline, carriage return). -/
def isJsonWs (c : Char) : Bool :=
  c = ' ' || c = '\t' || c = '\n' || c = '\r'

/-- Hex digit value, via the code point: 48-57 are the digits, 97-102
lowercase a-f, 65-70 uppercase A-F. -/
def hexVal (c : Char) : Option Nat :=
  let n := c.toNat
  if 48 ≤ n ∧ n ≤ 57 then some (n - 48)
  else if 97 ≤ n ∧ n ≤ 102 then some (n - 87)
  else if 65 ≤ n ∧ n ≤ 70 then some (n - 55)
  else none

/-- Parse exactly four hex digits. -/
def parseHex4 : List Char → Option (Nat × List Char)
  | a :: b :: c :: d :: rest => do
    let va ← hexVal a
    let vb ← hexVal b
    let vc ← hexVal c
    let vd ← hexVal d
    some (((va * 16 + vb) * 16 + vc) * 16 + vd, rest)
  | _ => none

/-- Body of a JSON string literal after the opening quote. Surrogate pairs
from `\u` escapes are combined into one scalar; a lone surrogate (which JS
would keep as an unpaired UTF-16 unit, unrepresentable as a scalar) maps
through `Char.ofNat`'s fallback and never occurs in the inputs considered
here. Unescaped control characters are rejected as in strict JSON. -/
def parseJsonStringBody : Nat → List Char → Option (List Char × List Char)
  | 0, _ => none
  | _, [] => none
  | fuel + 1, c :: rest =>
    if c = '"' then some ([], rest)
    else if c = '\\' then
      match rest with
      | [] => none
      | e :: rest' =>
        if e = 'u' then do
          let (n, rest'') ← parseHex4 rest'
          if 0xD800 ≤ n && n ≤ 0xDBFF then
            match rest'' with
            | '\\' :: 'u' :: tail => do
              let (m, tail') ← parseHex4 tail
              if 0xDC00 ≤ m && m ≤ 0xDFFF then do
                let (s, r) ← parseJsonStringBody fuel tail'
                some (Char.ofNat (0x10000 + (n - 0xD800) * 0x400 + (m - 0xDC00)) :: s, r)
              else do
                let (s, r) ← parseJsonStringBody fuel rest''
                some (Char.ofNat n :: s, r)
            | _ => do
              let (s, r) ← parseJsonStringBody fuel rest''
              some (Char.ofNat n :: s, r)
          else do
            let (s, r) ← parseJsonStringBody fuel rest''
            some (Char.ofNat n :: s, r)
        else do
          let unescaped ←
            if e = '"' then some '"'
            else if e = '\\' then some '\\'
            else if e = '/' then some '/'
            else if e = 'b' then some '\x08'
            else if e = 'f' then some '\x0c'
            else if e = 'n' then some '\n'
            else if e = 'r' then some '\r'
            else if e = 't' then some '\t'
            else none
          let (s, r) ← parseJsonStringBody fuel rest'
          some (unescaped :: s, r)
    else if c.toNat < 0x20 then none
    else do
      let (s, r) ← parseJsonStringBody fuel rest
      some (c :: s, r)

/-- Digits to a natural number (most significant first). -/
def digitsToNat (ds : List Char) : Nat :=
  ds.foldl (fun acc c => acc * 10 + (c.toNat - '0'.toNat)) 0

/-- JSON number literal: strict grammar (`-?(0|[1-9]\d*)(\.\d+)?([eE][+-]?\d+)?`),
evaluated exactly in `ℚ`. -/
def parseJsonNumber (cs : List Char) : Option (ℚ × List Char) := do
  let (neg, cs) := match cs with
    | '-' :: rest => (true, rest)
    | _ => (false, cs)
  let (intDigits, cs) ←
    match cs with
    | '0' :: rest => some (['0'], rest)
    | c :: _ =>
      if '1' ≤ c && c ≤ '9' then span1 isDigitChar cs else none
    | [] => none
  let (fracDigits, cs) ←
    match cs with
    | '.' :: rest =>
      match span1 isDigitChar rest with
      | some (ds, r) => some (ds, r)
      | none => none
    | _ => some ([], cs)
  let (expVal, cs) ←
    match cs with
    | c :: rest =>
      if c = 'e' || c = 'E' then
        let (esign, rest') := match rest with
          | '+' :: r => ((1 : Int), r)
          | '-' :: r => ((-1 : Int), r)
          | _ => ((1 : Int), rest)
        match span1 isDigitChar rest' with
        | some (ds, r) => some (esign * (digitsToNat ds : Int), r)
        | none => none
      else some ((0 : Int), cs)
    | [] => some ((0 : Int), cs)
  let mantissa : Int := (digitsToNat (intDigits ++ fracDigits) : Int)
  let signed : Int := if neg then -mantissa else mantissa
  -- `signed * 10 ^ (expVal - fracDigits.length)` evaluated exactly via
  -- `mkRat` (the irreducible `ℚ` field operations are avoided so that the
  -- parser is kernel-evaluable).
  let e : Int := expVal - (fracDigits.length : Int)
  let q : ℚ :=
    if 0 ≤ e then mkRat (signed * (powTenNat e.toNat : Int)) 1
    else mkRat signed (powTenNat (-e).toNat)
  some (q, cs)

mutual

/-- One JSON value; leading whitespace is skipped. -/
def parseJsonValue : Nat → List Char → Option (Json × List Char)
  | 0, _ => none
  | fuel + 1, cs =>
    match cs.dropWhile isJsonWs with
    | '\x7b' :: rest =>
      (match (rest.dropWhile isJsonWs) with
       | '\x7d' :: rest' => some (Json.obj [], rest')
       | _ => do
         let (fs, r) ← parseJsonMembers fuel rest []
         some (Json.obj fs, r))
    | '[' :: rest =>
      (match (rest.dropWhile isJsonWs) with
       | ']' :: rest' => some (Json.arr [], rest')
       | _ => do
         let (xs, r) ← parseJsonElements fuel rest []
         some (Json.arr xs, r))
    | '"' :: rest => do
      let (s, r) ← parseJsonStringBody (rest.length + 1) rest
      some (Json.str s, r)
    | 't' :: rest => do
      let r ← dropLit "rue".data rest
      some (Json.bool true, r)
    | 'f' :: rest => do
      let r ← dropLit "alse".data rest
      some (Json.bool false, r)
    | 'n' :: rest => do
      let r ← dropLit "ull".data rest
      some (Json.null, r)
    | other => do
      let (q, r) ← parseJsonNumber other
      some (Json.num q, r)

/-- Members of a JSON object after the opening brace (at least one). -/
def parseJsonMembers (fuel : Nat) (cs : List Char)
    (acc : List (List Char × Json)) : Option (List (List Char × Json) × List Char) :=
  match fuel with
  | 0 => none
  | fuel + 1 =>
    match cs.dropWhile isJsonWs with
    | '"' :: rest => do
      let (key, r1) ← parseJsonStringBody (rest.length + 1) rest
      match r1.dropWhile isJsonWs with
      | ':' :: r2 => do
        let (v, r3) ← parseJsonValue fuel r2
        let acc' := jsInsert key v acc
        match r3.dropWhile isJsonWs with
        | ',' :: r4 => parseJsonMembers fuel r4 acc'
        | '\x7d' :: r4 => some (acc', r4)
        | _ => none
      | _ => none
    | _ => none

/-- Elements of a JSON array after the opening bracket (at least one). -/
def parseJsonElements (fuel : Nat) (cs : List Char)
    (acc : List Json) : Option (List Json × List Char) :=
  match fuel with
  | 0 => none
  | fuel + 1 => do
    let (v, r1) ← parseJsonValue fuel cs
    match r1.dropWhile isJsonWs with
    | ',' :: r2 => parseJsonElements fuel r2 (v :: acc)
    | ']' :: r2 => some ((v :: acc).reverse, r2)
    | _ => none

end

/-- `JSON.parse`: the whole input must be one JSON value surrounded only by
whitespace. -/
def jsonParse (cs : List Char) : Option Json :=
  match parseJsonValue (cs.length + 1) cs with
  | some (v, rest) => if (rest.dropWhile isJsonWs).isEmpty then some v else none
  | none => none

/-! ## JS value rendering and the memory-result formatter -/

/-- `Math.round`: round half toward positive infinity, i.e. `⌊q + 1/2⌋`,
computed as `⌊(2·num + den) / (2·den)⌋` so that it kernel-evaluates
(see `jsRound_eq_floor` below for the bridge to the `⌊⌋` form). -/
def jsRound (q : ℚ) : Int := Rat.floor (mkRat (2 * q.num + (q.den : Int)) (2 * q.den))

/-- Render an integer the way a JS template literal does. -/
def renderInt (i : Int) : List Char := (toString i).data

/-- Render a `ℚ` the way JS renders the corresponding number: integer
values without a point, finite decimal fractions in positional notation
(the minimal number of fraction digits). Values whose denominator is not a
divisor of a small power of ten (never produced by the JSON literals in
these logs) fall back to a fraction rendering. -/
def qToChars (q : ℚ) : List Char :=
  if q.den = 1 then renderInt q.num
  else
    match (List.range 41).find? (fun k => q.den ∣ powTenNat k) with
    | some k =>
      let scaled : Int := q.num * (powTenNat k : Int) / (q.den : Int)
      let digits := (toString scaled.natAbs).data
      let padded := List.replicate (k + 1 - digits.length) '0' ++ digits
      let intPart := padded.take (padded.length - k)
      let fracPart := padded.drop (padded.length - k)
      (if q.num < 0 then ['-'] else []) ++ intPart ++ '.' :: fracPart
    | none => renderInt q.num ++ '/' :: (toString q.den).data

mutual

/-- JS `String(v)` for a parsed JSON value; the flag is true when the value
is being rendered as an array element (where `null` renders empty). -/
def jsToStringAux : Bool → Json → List Char
  | inElem, .null => if inElem then [] else "null".data
  | _, .bool true => "true".data
  | _, .bool false => "false".data
  | _, .num q => qToChars q
  | _, .str s => s
  | _, .obj _ => "[object Object]".data
  | _, .arr xs => intercalateChar ',' (jsToStringList xs)

/-- Render each element of an array for `Array.prototype.join`. -/
def jsToStringList : List Json → List (List Char)
  | [] => []
  | x :: xs => jsToStringAux true x :: jsToStringList xs

end

/-- JS truthiness of a parsed JSON value. -/
def truthy : Json → Bool
  | .null => false
  | .bool b => b
  | .num q => decide (q ≠ 0)
  | .str s => !s.isEmpty
  | .arr _ => true
  | .obj _ => true

/-- Property lookup on a parsed JSON value (`undefined` is `none`); only
valid on non-null values — the callers below handle the null TypeError
explicitly. -/
def jsonField (v : Json) (key : String) : Option Json :=
  match v with
  | .obj fs => fs.lookup key.data
  | _ => none

/-- The ` [N%]` score tag of one result entry: present exactly when the
entry's `score` is a number (`typeof r.score === "number"`), the value
`Math.round(r.score * 100)` — the product computed exactly as
`mkRat (num * 100) den` (equal to `q * 100`, see `mkRat_mul_hundred`). -/
def scoreTagOf (r : Json) : List Char :=
  match jsonField r "score" with
  | some (.num q) => ' ' :: '[' :: (renderInt (jsRound (mkRat (q.num * 100) q.den)) ++ "%]".data)
  | _ => []

/-- Render one entry of a `results` array as `extractAnnotatedResult` does:
`  [score%] content-snippet...`. Returns `none` when the JS code would
throw a TypeError (a `null` entry, or a `content` on which `.slice` is not
a function); the thrown error is caught by the enclosing `try`. -/
def renderEntry (r : Json) : Option (List Char) :=
  match r with
  | .null => none
  | _ =>
    let c : Json :=
      match jsonField r "content" with
      | none => .str []
      | some .null => .str []
      | some v => v
    match c with
    | .str s =>
      some ("  ".data ++ scoreTagOf r ++ ' ' :: (s.take 150 ++
        (if 150 < s.length then "...".data else [])))
    | .arr xs =>
      some ("  ".data ++ scoreTagOf r ++ ' ' :: (jsToStringAux true (.arr (xs.take 150)) ++
        (if 150 < xs.length then "...".data else [])))
    | _ => none

/-- The pluralized count line of a `results` summary: the `count` field
when present (else the array length), `result`/`results` by `count !== 1`,
then an optional `(mode)` tag and an optional `N tokens` tag, joined by
single spaces. -/
def countLineOf (data : Json) (rs : List Json) : List Char :=
  let countIsOne : Bool :=
    match jsonField data "count" with
    | none => rs.length == 1
    | some .null => rs.length == 1
    | some (.num q) => q == 1
    | some _ => false
  let countRendered : List Char :=
    match jsonField data "count" with
    | none => (toString rs.length).data
    | some .null => (toString rs.length).data
    | some v => jsToStringAux false v
  let part1 := countRendered ++ " result".data ++ (if countIsOne then [] else ['s'])
  let parts2 :=
    match jsonField data "mode" with
    | some m => if truthy m then [part1, '(' :: (jsToStringAux false m ++ [')'])] else [part1]
    | none => [part1]
  let parts3 :=
    match jsonField data "tokens_used" with
    | some t => if truthy t then parts2 ++ [jsToStringAux false t ++ " tokens".data] else parts2
    | none => parts2
  intercalateChar ' ' parts3

/-- The `  ... and N more` line appended when more than 3 results exist. -/
def moreLine (rs : List Json) : List Char :=
  "  ... and ".data ++ ((toString (rs.length - 3)).data ++ " more".data)

/-- Effectful map over `Option` (the loop over `data.results.slice(0, 3)`;
a `none` models the TypeError thrown by a malformed entry, aborting the
whole formatting into the `catch`). -/
def mapOption (f : α → Option β) : List α → Option (List β)
  | [] => some []
  | a :: as =>
    match f a, mapOption f as with
    | some b, some bs => some (b :: bs)
    | _, _ => none

/-- The `results`-array branch of `extractAnnotatedResult`'s formatter. -/
def formatResults (data : Json) (rs : List Json) : Option (List Char) :=
  match mapOption renderEntry (rs.take 3) with
  | none => none
  | some entries =>
    let more := if 3 < rs.length then [moreLine rs] else []
    some (intercalateChar '\n' (countLineOf data rs :: (entries ++ more)))

/-- The shape dispatch of `extractAnnotatedResult` after `JSON.parse`
succeeds: `results`-array formatting, else `success` formatting, else
nothing. `none` covers the unrecognized-shape fall-through and a caught
TypeError; in both cases the summary ends up empty. A non-object value has
no own properties (`results`/`success` are undefined — and on `null` the
very first access throws, which the `catch` turns into the same empty
summary), so every non-object yields `none`. -/
def formatData : Json → Option (List Char)
  | .obj fs =>
    match fs.lookup "results".data with
    | some (.arr rs) => formatResults (Json.obj fs) rs
    | _ =>
      match fs.lookup "success".data with
      | some sv => some (if truthy sv then "stored".data else "failed".data)
      | none => none
  | _ => none

/-- The end index of the collecting scan of `extractAnnotatedResult`. -/
def extractEndIndex (lines : List (List Char)) (startIndex : Nat) : Nat :=
  (extractLoop lines lines.length (startIndex + 1) 1 []).1

/-- The collected block lines joined by newlines (the `blob`). -/
def extractBlob (lines : List (List Char)) (startIndex : Nat) : List Char :=
  intercalateChar '\n' (extractLoop lines lines.length (startIndex + 1) 1 []).2

/-- `extractAnnotatedResult(lines, startIndex)`: collect the block, locate
the embedded JSON in a `text: "..."` field, unescape and parse it, and
format a human-readable summary; any failure yields an empty summary. -/
def extractAnnotatedResult (lines : List (List Char)) (startIndex : Nat) :
    Nat × List Char :=
  let endI := extractEndIndex lines startIndex
  match findTextJson (extractBlob lines startIndex) with
  | none => (endI, [])
  | some g =>
    match jsonParse (unescapeRust g) with
    | none => (endI, [])
    | some data => (endI, (formatData data).getD [])

/-! ## Events and the main parser loop (`parseRunLog`) -/

inductive RunEventType where
  | session_start
  | agent_thinking
  | tool_call
  | shell_cmd
  | phase_marker
  | info
deriving DecidableEq

/-- One parsed run event. Absent JS fields are `none`; `params` is an
ordered key-value list with JS-object insertion semantics. -/
structure RunEvent where
  type : RunEventType
  index : Nat := 0
  progressPercent : ℚ := 0
  tool : Option String := none
  extension : Option String := none
  params : List (String × String) := []
  command : Option String := none
  provider : Option String := none
  model : Option String := none
  phase : Option String := none
  result : Option String := none
  content : String := ""
deriving DecidableEq

instance : Inhabited RunEvent := ⟨{ type := RunEventType.info }⟩

/-- `RESULT_CAPTURE_TOOLS`. -/
def RESULT_CAPTURE_TOOLS : List String :=
  ["memory_search", "memory_add", "memory_forget", "memory_update"]

/-- The `!events[k].result` test of `findFirstUnresolvedMemoryEvent`:
an absent result, or an empty-string result, is falsy. -/
def resultFalsy : Option String → Bool
  | none => true
  | some s => s = ""

/-- `findFirstUnresolvedMemoryEvent`: index of the first `tool_call` event
whose tool is in the capture whitelist and which has no (truthy) result. -/
def findFirstUnresolvedMemoryEvent : List RunEvent → Option Nat
  | [] => none
  | e :: rest =>
    if e.type = RunEventType.tool_call &&
        RESULT_CAPTURE_TOOLS.contains (e.tool.getD "") &&
        resultFalsy e.result then
      some 0
    else
      (findFirstUnresolvedMemoryEvent rest).map (· + 1)

/-- `events[k].result = summary`. -/
def setResultAt : List RunEvent → Nat → String → List RunEvent
  | [], _, _ => []
  | e :: rest, 0, s => { e with result := some s } :: rest
  | e :: rest, k + 1, s => e :: setResultAt rest k s

/-- `flushThinking`: filter leaked Annotated-block internals out of the
buffered lines, trim, discard debris, and emit an `agent_thinking` event
if text remains. The buffer is accumulated in reverse. -/
def flushThinking (events : List RunEvent) (buffer : List (List Char)) :
    List RunEvent :=
  let cleaned := (buffer.reverse).filter (fun l => !annotatedLeakTest l)
  let text := jsTrim (intercalateChar '\n' cleaned)
  if debrisTest text then events
  else if text.isEmpty then events
  else events ++ [{ type := RunEventType.agent_thinking, content := String.mk text }]

/-- Phase classification by substring match on a shell command
(the cascade in `parseRunLog`'s shell branch). -/
def phaseOf (c : List Char) : Option String :=
  if containsSub "git clone".data c then some "cloning"
  else if containsSub "goose run".data c || containsSub "AGENT_COMMAND".data c then some "agent"
  else if containsSub "git push".data c then some "pushing"
  else if containsSub "git add".data c || containsSub "git commit".data c then some "committing"
  else none

/-- Is a line one of the four structural elements that stop an
output-collection scan? -/
def isStructuralLine (l : List Char) : Bool :=
  toolHeaderTest l || (shellCmdMatch l).isSome || (sessionStartMatch l).isSome || appRunTest l

/-- The session-metadata skip loop (`SESSION_META_RE` lines). -/
def sessionMetaLoop (lines : List (List Char)) : Nat → Nat → Nat
  | 0, j => j
  | fuel + 1, j =>
    if j < lines.length && sessionMetaTest (lines.getD j []) then
      sessionMetaLoop lines fuel (j + 1)
    else j

/-- The trailing-noise skip after a tool's Annotated result block. -/
def noiseSkipLoop (lines : List (List Char)) : Nat → Nat → Nat
  | 0, j => j
  | fuel + 1, j =>
    if j < lines.length && isNoiseLine (lines.getD j []) then
      noiseSkipLoop lines fuel (j + 1)
    else j

/-- JS object property write for the params mapping: update in place if the
key exists, else append (insertion order preserved). -/
def paramsInsert (key v : String) : List (String × String) → List (String × String)
  | [] => [(key, v)]
  | (k, w) :: rest =>
    if k = key then (k, v) :: rest else (k, w) :: paramsInsert key v rest

/-- The parameter-collection loop after a tool-call header: noise lines are
skipped, parameter-shaped lines are recorded, anything else stops it. -/
def paramLoop (lines : List (List Char)) :
    Nat → Nat → List (String × String) → Nat × List (String × String)
  | 0, j, acc => (j, acc)
  | fuel + 1, j, acc =>
    if j < lines.length then
      let line := lines.getD j []
      if isNoiseLine line then paramLoop lines fuel (j + 1) acc
      else
        match toolParamMatch line with
        | some (k, v) =>
          paramLoop lines fuel (j + 1) (paramsInsert (String.mk k) (String.mk v) acc)
        | none => (j, acc)
    else (j, acc)

/-- The stdout-collection loop after a shell command: gathers non-noise
lines (reverse accumulation) until a structural line, skipping embedded
Annotated blocks. -/
def shellOutLoop (lines : List (List Char)) :
    Nat → Nat → List (List Char) → Nat × List (List Char)
  | 0, j, acc => (j, acc.reverse)
  | fuel + 1, j, acc =>
    if j < lines.length then
      let line := lines.getD j []
      if isStructuralLine line then (j, acc.reverse)
      else if annotatedStartTest line then
        shellOutLoop lines fuel (skipAnnotatedBlock lines j) acc
      else if isNoiseLine line then shellOutLoop lines fuel (j + 1) acc
      else shellOutLoop lines fuel (j + 1) (line :: acc)
    else (j, acc.reverse)

/-- The output-collection loop after a tool-call header: like the shell
loop, but an Annotated block ends the call — extracting a result summary
for whitelisted tools, then skipping trailing noise. -/
def toolOutLoop (lines : List (List Char)) (tool : String) :
    Nat → Nat → List (List Char) → Nat × List (List Char) × Option String
  | 0, j, acc => (j, acc.reverse, none)
  | fuel + 1, j, acc =>
    if j < lines.length then
      let line := lines.getD j []
      if isStructuralLine line then (j, acc.reverse, none)
      else if annotatedStartTest line then
        if RESULT_CAPTURE_TOOLS.contains tool then
          let ex := extractAnnotatedResult lines j
          let j' := noiseSkipLoop lines lines.length ex.1
          (j', acc.reverse, if ex.2.isEmpty then none else some (String.mk ex.2))
        else
          let j' := noiseSkipLoop lines lines.length (skipAnnotatedBlock lines j)
          (j', acc.reverse, none)
      else if isNoiseLine line then toolOutLoop lines tool fuel (j + 1) acc
      else toolOutLoop lines tool fuel (j + 1) (line :: acc)
    else (j, acc.reverse, none)

/-- `shortenPath`: strip everything up to a `/repo/` marker, else fall back
to the last three path segments. -/
def shortenPath (p : String) : String :=
  match indexOfSub "/repo/".data p.data with
  | some idx => String.mk (p.data.drop (idx + 6))
  | none =>
    let segments := splitOnChar '/' p.data
    if 3 < segments.length then
      String.mk (".../".data ++ intercalateChar '/' (segments.drop (segments.length - 3)))
    else p

/-- A params value, treated the JS-truthy way (present and nonempty). -/
def paramTruthy (params : List (String × String)) (key : String) : Option String :=
  match params.lookup key with
  | some v => if v = "" then none else some v
  | none => none

/-- The best-effort one-line summary of a tool call. -/
def toolSummary (tool : String) (params : List (String × String)) : String :=
  match paramTruthy params "path" with
  | some p => tool ++ ": " ++ shortenPath p
  | none =>
    match paramTruthy params "command" with
    | some c => tool ++ ": " ++ c
    | none =>
      match paramTruthy params "query" with
      | some q => tool ++ ": \"" ++ q ++ "\""
      | none => tool

/-- One top-level iteration of `parseRunLog`'s while loop, as a pure state
transition `(i, events, thinkingBuffer) ↦ (i', events', thinkingBuffer')`.
Only called with `i < lines.length`. -/
def step (lines : List (List Char)) (i : Nat) (events : List RunEvent)
    (buffer : List (List Char)) : Nat × List RunEvent × List (List Char) :=
  let line := lines.getD i []
  if isNoiseLine line then (i + 1, events, buffer)
  else if annotatedStartTest line then
    match findFirstUnresolvedMemoryEvent events with
    | some k =>
      let ex := extractAnnotatedResult lines i
      (ex.1, if ex.2.isEmpty then events else setResultAt events k (String.mk ex.2), buffer)
    | none => (skipAnnotatedBlock lines i, events, buffer)
  else if appRunTest line then
    (i + 1,
     flushThinking events buffer ++
       [{ type := RunEventType.info, content := String.mk line }],
     [])
  else
    match sessionStartMatch line with
    | some (p, m) =>
      let j := sessionMetaLoop lines lines.length (i + 1)
      (j,
       flushThinking events buffer ++
         [{ type := RunEventType.session_start,
            provider := some (String.mk p), model := some (String.mk m),
            content := "Session started with " ++ String.mk p ++ " / " ++ String.mk m }],
       [])
    | none =>
      match shellCmdMatch line with
      | some c =>
        let phase := phaseOf c
        let (j, out) := shellOutLoop lines lines.length (i + 1) []
        let output := jsTrim (intercalateChar '\n' out)
        let cmd := String.mk c
        (j,
         flushThinking events buffer ++
           [{ type := if phase.isSome then RunEventType.phase_marker else RunEventType.shell_cmd,
              command := some cmd, phase := phase,
              content :=
                if output.isEmpty then "$ " ++ cmd
                else "$ " ++ cmd ++ "\n" ++ String.mk output }],
         [])
      | none =>
        match toolHeaderMatch line with
        | some (t, ext) =>
          let tool := String.mk t
          let (j1, params) := paramLoop lines lines.length (i + 1) []
          let (j2, out, toolResult) := toolOutLoop lines tool lines.length j1 []
          let summary := toolSummary tool params
          let output := jsTrim (intercalateChar '\n' out)
          (j2,
           flushThinking events buffer ++
             [{ type := RunEventType.tool_call,
                tool := some tool, extension := some (String.mk ext),
                params := params, result := toolResult,
                content :=
                  if output.isEmpty then summary
                  else summary ++ "\n" ++ String.mk output }],
           [])
        | none => (i + 1, events, line :: buffer)

/-- The fuelled main loop; fuel exhaustion finalizes exactly like the
end-of-input exit (flushing the thinking buffer). Each `step` advances the
cursor by at least one line, so `lines.length` fuel always suffices. -/
def parseLoop (lines : List (List Char)) :
    Nat → Nat → List RunEvent → List (List Char) → List RunEvent
  | 0, _, events, buffer => flushThinking events buffer
  | fuel + 1, i, events, buffer =>
    if i < lines.length then
      let s := step lines i events buffer
      parseLoop lines fuel s.1 s.2.1 s.2.2
    else flushThinking events buffer

/-- Significant events for progress computation. -/
def isSignificant (e : RunEvent) : Bool :=
  e.type = RunEventType.tool_call || e.type = RunEventType.agent_thinking ||
  e.type = RunEventType.session_start

/-- The proportional progress formula:
`Math.round(((k) / N) * 1000) / 10` (with `k` the 1-based significant
index), guarded to `0` when `N = 0`. The quotient `(k / N) * 1000` is the
exact rational `mkRat (k * 1000) N` (see `pctQ_eq_floor_form`). -/
def pctQ (N k : Nat) : ℚ :=
  if 0 < N then (jsRound (mkRat ((k : Int) * 1000) N) : ℚ) / 10 else 0

/-- Fixed milestone percentages for phase markers. -/
def phasePctOf : Option String → ℚ
  | some s =>
    if s = "cloning" then 5
    else if s = "agent" then 10
    else if s = "committing" then 88
    else if s = "pushing" then 95
    else 0
  | none => 0

/-- `events[idx].index = idx` assignment pass. -/
def indexMap : List RunEvent → Nat → List RunEvent
  | [], _ => []
  | e :: rest, k => { e with index := k } :: indexMap rest (k + 1)

/-- The progress-assignment pass: significant events get the proportional
percentage (threading the significant counter), phase markers get their
milestone constants, everything else keeps progress 0. -/
def progressMap (N : Nat) : Nat → List RunEvent → List RunEvent
  | _, [] => []
  | k, e :: rest =>
    if isSignificant e then
      { e with progressPercent := pctQ N (k + 1) } :: progressMap N (k + 1) rest
    else if e.type = RunEventType.phase_marker then
      { e with progressPercent := phasePctOf e.phase } :: progressMap N k rest
    else e :: progressMap N k rest

/-- The post-assembly pass of `parseRunLog`: indices, then progress. -/
def assignProgress (events : List RunEvent) : List RunEvent :=
  let N := (events.filter isSignificant).length
  progressMap N 0 (indexMap events 0)

/-- `rawLog.split("\n")`. -/
def splitLines (raw : String) : List (List Char) :=
  splitOnChar '\n' raw.data

/-- `parseRunLog(rawLog)`: the main entry point. -/
def parseRunLog (raw : String) : List RunEvent :=
  let lines := splitLines raw
  assignProgress (parseLoop lines lines.length 0 [] [])

/-! ## Bridging lemmas: the kernel-evaluable arithmetic forms equal the
mathematical forms used in the statements. -/

theorem ratFloor_eq_intFloor (q : ℚ) : Rat.floor q = ⌊q⌋ :=
  (Rat.floor_def' q).trans Rat.floor_def.symm

theorem num_eq_self_mul_den (q : ℚ) : (q.num : ℚ) = q * (q.den : ℚ) := by
  have hd : ((q.den : ℚ)) ≠ 0 := by exact_mod_cast q.den_pos.ne'
  have h := Rat.num_div_den q
  rw [div_eq_iff hd] at h
  exact h

theorem jsRound_eq_floor (q : ℚ) : jsRound q = ⌊q + 1 / 2⌋ := by
  have hd : ((q.den : ℚ)) ≠ 0 := by exact_mod_cast q.den_pos.ne'
  rw [jsRound, ratFloor_eq_intFloor]
  congr 1
  rw [Rat.mkRat_eq_div]
  push_cast
  rw [div_eq_iff (by positivity)]
  have h := num_eq_self_mul_den q
  ring_nf
  ring_nf at h
  rw [h]
  ring

theorem jsRound_mono {a b : ℚ} (h : a ≤ b) : jsRound a ≤ jsRound b := by
  rw [jsRound_eq_floor, jsRound_eq_floor]
  exact Int.floor_le_floor (by linarith)

theorem pctQ_eq_floor_form (N k : Nat) (hN : 0 < N) :
    pctQ N k = (⌊(k : ℚ) / (N : ℚ) * 1000 + 1 / 2⌋ : ℚ) / 10 := by
  have hq : mkRat ((k : Int) * 1000) N = (k : ℚ) / (N : ℚ) * 1000 := by
    rw [Rat.mkRat_eq_div]
    push_cast
    ring
  rw [pctQ, if_pos hN, hq, jsRound_eq_floor]

theorem mkRat_mul_hundred (q : ℚ) : mkRat (q.num * 100) q.den = q * 100 := by
  have hd : ((q.den : ℚ)) ≠ 0 := by exact_mod_cast q.den_pos.ne'
  rw [Rat.mkRat_eq_div]
  push_cast
  rw [div_eq_iff hd, num_eq_self_mul_den q]
  ring

/-! ## C9: empty and blank-only inputs -/

set_option maxRecDepth 4000 in
/-- C9: `parseRunLog` applied to the empty string returns the empty event
list, and applied to input consisting only of blank lines (`"\n\n\n"`)
also returns the empty event list. -/
theorem parseRunLog_empty_inputs :
    parseRunLog "" = [] ∧ parseRunLog "\n\n\n" = [] := by
  constructor <;> decide

/-! ## C1: batched tool calls followed by orphaned result blocks -/

/-- One five-line Annotated result block whose embedded JSON is
`{"results":[],"count":n}` (summary `"n result(s)"`). -/
def annotatedCountBlock (n : Nat) : List String :=
  [ "Annotated \x7b",
    "  raw: Text(RawTextContent \x7b",
    "    text: \"\x7b\\\"results\\\":[],\\\"count\\\":" ++ toString n ++ "\x7d\",",
    "    meta: None \x7d),",
    "  annotations: None \x7d" ]

/-- Three back-to-back `memory_search` tool-call headers followed by three
Annotated result blocks in call order (counts 0, 1, 2) — the batched /
orphaned pattern of the claim. -/
def batchedInput : String :=
  String.intercalate "\n"
    ([ "─── memory_search | cems ──────",
       "─── memory_search | cems ──────",
       "─── memory_search | cems ──────" ] ++
     annotatedCountBlock 0 ++ annotatedCountBlock 1 ++ annotatedCountBlock 2)

set_option maxRecDepth 8000 in
/-- C1: on three back-to-back `memory_search` headers followed by three
result blocks in call order, the code does NOT attach the i-th block to
the i-th call: the third (last) call grabs the first block inline through
its own output scan, and the orphan FIFO pass then attaches blocks 2 and 3
to calls 1 and 2. The attachments come out rotated —
call 1 ← block 2 (`"1 result"`), call 2 ← block 3 (`"2 results"`),
call 3 ← block 1 (`"0 results"`) — contradicting the claimed FIFO
call-order matching (block i → call i), which would give
`"0 results", "1 result", "2 results"`. -/
theorem batched_results_misattributed :
    ((parseRunLog batchedInput).map (fun e => (e.type, e.tool, e.result))) =
      [(RunEventType.tool_call, some "memory_search", some "1 result"),
       (RunEventType.tool_call, some "memory_search", some "2 results"),
       (RunEventType.tool_call, some "memory_search", some "0 results")] := by
  decide

/-! ## C4: `skipAnnotatedBlock` -/

/-- Modelled from the spec's escape rule for C4: a double quote is escaped
only when immediately preceded by a backslash that is not itself escaped.
The `esc` flag records whether the previous character was an unescaped
backslash; everything else mirrors `scanChars`. -/
def scanCharsSpec : List Char → Bool → Bool → Int → Int
  | [], _, _, depth => depth
  | c :: rest, esc, inQuote, depth =>
    if c = '"' && !esc then scanCharsSpec rest false (!inQuote) depth
    else
      let esc' := c = '\\' && !esc
      if !inQuote && c = '\x7b' then scanCharsSpec rest esc' inQuote (depth + 1)
      else if !inQuote && c = '\x7d' then scanCharsSpec rest esc' inQuote (depth - 1)
      else scanCharsSpec rest esc' inQuote depth

/-- The block skipper as the spec describes it (C4), differing from
`skipAnnotatedBlock` only in the quote-escape rule. -/
def skipLoopSpec (lines : List (List Char)) : Nat → Nat → Int → Nat
  | 0, i, _ => i
  | fuel + 1, i, depth =>
    if i < lines.length && depth > 0 then
      let line := lines.getD i []
      if toolHeaderTest line then i
      else skipLoopSpec lines fuel (i + 1) (scanCharsSpec line false false depth)
    else i

def skipAnnotatedBlockSpec (lines : List (List Char)) (startIndex : Nat) : Nat :=
  skipLoopSpec lines lines.length (startIndex + 1) 1

/-- C4 as stated: on a block-opening start line, `skipAnnotatedBlock`
scans with the spec's escape rule (agreeing with the spec-modelled
skipper), advances, and stays in bounds. -/
def C4Claim : Prop :=
  ∀ (lines : List (List Char)) (s : Nat), s < lines.length →
    annotatedStartTest (lines.getD s []) = true →
    skipAnnotatedBlock lines s = skipAnnotatedBlockSpec lines s ∧
    s < skipAnnotatedBlock lines s ∧ skipAnnotatedBlock lines s ≤ lines.length

/-- The three-line block distinguishing the two escape rules: its second
line ends `\\" }` — under the code's single-level rule the quote after the
double backslash stays escaped (so the `}` is inside the string and the
block continues to line 2), while under the spec's rule the backslash is
itself escaped, the quote closes the string and the block already ends on
line 1. -/
def escapeDemoLines : List (List Char) :=
  [ "Annotated \x7b".data,
    "x: \"a\\\\\" \x7d".data,
    "\x7d".data ]

/-- C4 counterexample: the claim's escape rule ("a quote is escaped only by
a backslash that is not itself escaped") does not hold of the code — on
`escapeDemoLines` the code returns 3 while the spec rule returns 2. -/
theorem skip_escape_rule_counterexample : ¬ C4Claim := by
  intro h
  have h2 := h escapeDemoLines 0 (by decide) (by decide)
  have e1 : skipAnnotatedBlock escapeDemoLines 0 = 3 := by decide
  have e2 : skipAnnotatedBlockSpec escapeDemoLines 0 = 2 := by decide
  omega

/-- Net depth change of one line under the code's scan (fresh quote state
per line, single-level escape). -/
def lineDepthDelta (l : List Char) : Int := scanChars l none false 0

/-- Sum of the depth deltas of lines `i, i+1, …, i+n-1`. -/
def deltaSum (lines : List (List Char)) (i n : Nat) : Int :=
  ((List.range' i n).map (fun t => lineDepthDelta (lines.getD t []))).sum

/-- Depth after the scan has processed lines `s+1 … m-1` of a block opened
at line `s` (initial depth 1). -/
def depthAfter (lines : List (List Char)) (s m : Nat) : Int :=
  1 + deltaSum lines (s + 1) (m - (s + 1))

/-- The loop's stop condition at line `j`: a tool-call header (checked
before the line is scanned), or depth ≤ 0 after scanning the line. -/
def stopCond (lines : List (List Char)) (s j : Nat) : Prop :=
  toolHeaderTest (lines.getD j []) = true ∨ depthAfter lines s (j + 1) ≤ 0

theorem scanChars_add (cs : List Char) : ∀ (prev : Option Char) (q : Bool) (d : Int),
    scanChars cs prev q d = d + scanChars cs prev q 0 := by
  induction cs with
  | nil => intro prev q d; simp [scanChars]
  | cons c rest ih =>
    intro prev q d
    simp only [scanChars]
    split
    · exact ih _ _ d
    · split
      · rw [ih _ _ (d + 1), ih _ _ (0 + 1)]; ring
      · split
        · rw [ih _ _ (d - 1), ih _ _ (0 - 1)]; ring
        · exact ih _ _ d

theorem skipLoop_ge (lines : List (List Char)) :
    ∀ (fuel i : Nat) (d : Int), i ≤ skipLoop lines fuel i d := by
  intro fuel
  induction fuel with
  | zero => intro i d; simp [skipLoop]
  | succ fuel ih =>
    intro i d
    simp only [skipLoop]
    split
    · split
      · exact le_refl i
      · exact le_trans (Nat.le_succ i) (ih (i + 1) _)
    · exact le_refl i

theorem skipLoop_le (lines : List (List Char)) :
    ∀ (fuel i : Nat) (d : Int), i ≤ lines.length →
      skipLoop lines fuel i d ≤ lines.length := by
  intro fuel
  induction fuel with
  | zero => intro i d h; simpa [skipLoop] using h
  | succ fuel ih =>
    intro i d h
    simp only [skipLoop]
    split
    · split
      · exact h
      · rename_i hlt _
        exact ih (i + 1) _ (by simp at hlt; omega)
    · exact h

/-- If depth is already ≤ 0, the loop returns its index immediately. -/
theorem skipLoop_nonpos (lines : List (List Char)) (fuel i : Nat) {d : Int}
    (hd : d ≤ 0) : skipLoop lines fuel i d = i := by
  cases fuel with
  | zero => simp [skipLoop]
  | succ fuel =>
    simp only [skipLoop]
    rw [if_neg]
    simp only [Bool.and_eq_true, decide_eq_true_eq, not_and]
    intro _
    omega

theorem deltaSum_zero (lines : List (List Char)) (i : Nat) : deltaSum lines i 0 = 0 := by
  simp [deltaSum]

theorem deltaSum_succ_front (lines : List (List Char)) (i n : Nat) :
    deltaSum lines i (n + 1) =
      lineDepthDelta (lines.getD i []) + deltaSum lines (i + 1) n := by
  simp [deltaSum, List.range'_succ]

/-- The stop characterization of the fuelled skip loop: if `j` is the first
index (≥ `i`) where a header appears or the running depth drops to 0, the
loop returns `j` for a header and `j + 1` otherwise. -/
theorem skipLoop_stops (lines : List (List Char)) :
    ∀ (fuel i : Nat) (d : Int) (j : Nat),
      lines.length - i ≤ fuel → 0 < d → i ≤ j → j < lines.length →
      (toolHeaderTest (lines.getD j []) = true ∨ d + deltaSum lines i (j + 1 - i) ≤ 0) →
      (∀ t, i ≤ t → t < j →
        ¬(toolHeaderTest (lines.getD t []) = true ∨ d + deltaSum lines i (t + 1 - i) ≤ 0)) →
      skipLoop lines fuel i d =
        if toolHeaderTest (lines.getD j []) then j else j + 1 := by
  intro fuel
  induction fuel with
  | zero =>
    intro i d j hfuel hd hij hjlen _ _
    omega
  | succ fuel ih =>
    intro i d j hfuel hd hij hjlen hstop hfirst
    simp only [skipLoop]
    rw [if_pos (by simp only [Bool.and_eq_true, decide_eq_true_eq]; omega)]
    rcases Nat.eq_or_lt_of_le hij with heq | hlt
    · subst heq
      by_cases hh : toolHeaderTest (lines.getD i []) = true
      · rw [if_pos hh, if_pos hh]
      · rw [if_neg hh]
        rcases hstop with hs | hs
        · exact absurd hs hh
        · rw [if_neg hh]
          have hsum : deltaSum lines i (i + 1 - i) = lineDepthDelta (lines.getD i []) := by
            have : i + 1 - i = 1 := by omega
            rw [this, deltaSum_succ_front, deltaSum_zero, add_zero]
          rw [hsum] at hs
          have : scanChars (lines.getD i []) none false d =
              d + lineDepthDelta (lines.getD i []) :=
            scanChars_add _ none false d
          rw [this]
          exact skipLoop_nonpos lines fuel (i + 1) hs
    · have hni : ¬(toolHeaderTest (lines.getD i []) = true ∨
          d + deltaSum lines i (i + 1 - i) ≤ 0) := hfirst i (le_refl i) hlt
      push_neg at hni
      obtain ⟨hnh, hnd⟩ := hni
      rw [if_neg hnh]
      have hsum1 : deltaSum lines i (i + 1 - i) = lineDepthDelta (lines.getD i []) := by
        have : i + 1 - i = 1 := by omega
        rw [this, deltaSum_succ_front, deltaSum_zero, add_zero]
      rw [hsum1] at hnd
      have hscan : scanChars (lines.getD i []) none false d =
          d + lineDepthDelta (lines.getD i []) := scanChars_add _ none false d
      rw [hscan]
      have hrebase : ∀ m, i + 1 ≤ m →
          d + deltaSum lines i (m - i) =
            (d + lineDepthDelta (lines.getD i [])) + deltaSum lines (i + 1) (m - (i + 1)) := by
        intro m hm
        have : m - i = (m - (i + 1)) + 1 := by omega
        rw [this, deltaSum_succ_front]
        ring
      rw [ih (i + 1) _ j (by omega) (by omega) hlt hjlen ?_ ?_]
      · rcases hstop with hs | hs
        · exact Or.inl hs
        · right
          have := hrebase (j + 1) (by omega)
          omega
      · intro t ht1 ht2
        have hnt := hfirst t (by omega) ht2
        push_neg at hnt
        push_neg
        refine ⟨hnt.1, ?_⟩
        have := hrebase (t + 1) (by omega)
        have h2 := hnt.2
        omega

/-- If no stop index exists, the loop runs to the end of the lines. -/
theorem skipLoop_runs_out (lines : List (List Char)) :
    ∀ (fuel i : Nat) (d : Int),
      lines.length - i ≤ fuel → 0 < d → i ≤ lines.length →
      (∀ j, i ≤ j → j < lines.length →
        ¬(toolHeaderTest (lines.getD j []) = true ∨ d + deltaSum lines i (j + 1 - i) ≤ 0)) →
      skipLoop lines fuel i d = lines.length := by
  intro fuel
  induction fuel with
  | zero =>
    intro i d hfuel _ hle _
    have : i = lines.length := by omega
    simp [skipLoop, this]
  | succ fuel ih =>
    intro i d hfuel hd hle hnone
    rcases Nat.eq_or_lt_of_le hle with heq | hlt
    · simp [skipLoop, heq]
    · simp only [skipLoop]
      rw [if_pos (by simp only [Bool.and_eq_true, decide_eq_true_eq]; omega)]
      have hni := hnone i (le_refl i) hlt
      push_neg at hni
      obtain ⟨hnh, hnd⟩ := hni
      rw [if_neg hnh]
      have hsum1 : deltaSum lines i (i + 1 - i) = lineDepthDelta (lines.getD i []) := by
        have : i + 1 - i = 1 := by omega
        rw [this, deltaSum_succ_front, deltaSum_zero, add_zero]
      rw [hsum1] at hnd
      have hscan : scanChars (lines.getD i []) none false d =
          d + lineDepthDelta (lines.getD i []) := scanChars_add _ none false d
      rw [hscan]
      apply ih (i + 1) _ (by omega) (by omega) (by omega)
      intro j hj1 hj2
      have hnj := hnone j (by omega) hj2
      push_neg at hnj
      push_neg
      refine ⟨hnj.1, ?_⟩
      have : j + 1 - i = ((j + 1) - (i + 1)) + 1 := by omega
      have h2 := hnj.2
      rw [this, deltaSum_succ_front] at h2
      omega

set_option maxRecDepth 2000 in
/-- C4 (amended: the quote toggles unless the immediately preceding
character is a backslash — regardless of whether that backslash is itself
escaped; everything else as claimed): `skipAnnotatedBlock` advances past
its start, never indexes outside `lines`, and returns per the first-stop
characterization — at the first line `j` after the opener where a tool
header appears or the quote-aware depth reaches 0, it returns `j` for the
header abort and `j + 1` otherwise; with no such line it returns
`lines.length`. It is a pure function of `(lines, startIndex)`. -/
theorem skipAnnotatedBlock_characterization (lines : List (List Char)) (s : Nat)
    (hs : s < lines.length) :
    (s < skipAnnotatedBlock lines s ∧ skipAnnotatedBlock lines s ≤ lines.length) ∧
    (∀ j, s + 1 ≤ j → j < lines.length → stopCond lines s j →
      (∀ t, s + 1 ≤ t → t < j → ¬ stopCond lines s t) →
      skipAnnotatedBlock lines s = if toolHeaderTest (lines.getD j []) then j else j + 1) ∧
    ((∀ j, s + 1 ≤ j → j < lines.length → ¬ stopCond lines s j) →
      skipAnnotatedBlock lines s = lines.length) := by
  have hrw : ∀ m, s + 1 ≤ m → depthAfter lines s m = 1 + deltaSum lines (s + 1) (m - (s + 1)) := by
    intro m _
    rfl
  refine ⟨⟨?_, ?_⟩, ?_, ?_⟩
  · exact Nat.lt_of_lt_of_le (Nat.lt_succ_self s) (skipLoop_ge lines _ _ _)
  · exact skipLoop_le lines _ _ _ (by omega)
  · intro j hj1 hj2 hstop hfirst
    apply skipLoop_stops lines lines.length (s + 1) 1 j (by omega) (by omega) hj1 hj2
    · rcases hstop with h | h
      · exact Or.inl h
      · right
        rw [hrw (j + 1) (by omega)] at h
        omega
    · intro t ht1 ht2
      have := hfirst t ht1 ht2
      rw [stopCond, hrw (t + 1) (by omega)] at this
      push_neg at this ⊢
      exact ⟨this.1, by have := this.2; omega⟩
  · intro hnone
    apply skipLoop_runs_out lines lines.length (s + 1) 1 (by omega) (by omega) (by omega)
    intro j hj1 hj2
    have := hnone j hj1 hj2
    rw [stopCond, hrw (j + 1) (by omega)] at this
    push_neg at this ⊢
    exact ⟨this.1, by have := this.2; omega⟩

/-- Witness for the C4 characterization at a concrete block: on
`escapeDemoLines` the first stop is the depth-0 at line 2 (no header), so
the skipper returns 3. -/
theorem skipAnnotatedBlock_characterization_witness :
    skipAnnotatedBlock escapeDemoLines 0 = 3 := by
  have h := (skipAnnotatedBlock_characterization escapeDemoLines 0 (by decide)).2.1
  have h2 := h 2 (by omega) (by decide) ?_ ?_
  · simpa using h2
  · rw [stopCond]
    right
    decide
  · intro t ht1 ht2
    have : t = 1 := by omega
    subst this
    rw [stopCond]
    push_neg
    constructor
    · decide
    · decide

/-! ## C5: `extractAnnotatedResult` never throws -/

/-- The parsed value carries a `results` array (null carries nothing —
property access on it throws, which the code catches). -/
def hasResultsArray (data : Json) : Prop :=
  ∃ rs, jsonField data "results" = some (Json.arr rs)

/-- The parsed value carries a `success` field (`!== undefined`). -/
def hasSuccessField (data : Json) : Prop :=
  (jsonField data "success").isSome = true

theorem formatData_unrecognized (data : Json)
    (hres : ¬ hasResultsArray data) (hsucc : ¬ hasSuccessField data) :
    formatData data = none := by
  cases data with
  | null => rfl
  | bool b => rfl
  | num q => rfl
  | str s => rfl
  | arr xs => rfl
  | obj fs =>
    have h2 : fs.lookup "success".data = none := by
      cases h : fs.lookup "success".data with
      | none => rfl
      | some v =>
        exact absurd
          (show (jsonField (Json.obj fs) "success").isSome = true by
            show (fs.lookup "success".data).isSome = true
            rw [h]
            rfl)
          hsucc
    show
      (match fs.lookup "results".data with
        | some (.arr rs) => formatResults (Json.obj fs) rs
        | _ =>
          match fs.lookup "success".data with
          | some sv => some (if truthy sv then "stored".data else "failed".data)
          | none => none) = none
    cases hr : fs.lookup "results".data with
    | none => rw [h2]
    | some v =>
      cases v with
      | arr rs => exact absurd ⟨rs, show jsonField (Json.obj fs) "results" = _ from hr⟩ hres
      | null => rw [h2]
      | bool b => rw [h2]
      | num q => rw [h2]
      | str s => rw [h2]
      | obj fs2 => rw [h2]

/-- C5: `extractAnnotatedResult` never throws — for every input, if the
collected block has no quoted text field with an embedded JSON object, or
the embedded JSON fails to parse, or the parsed value has neither a
`results` array nor a `success` field, it returns the empty summary
(together with the scan's end index) instead of propagating an error.
(In the embedding all functions are total; the thrown-and-caught paths of
the source are the `none` cases collapsed to the empty summary here.) -/
theorem extract_never_throws (lines : List (List Char)) (s : Nat) :
    (findTextJson (extractBlob lines s) = none →
      extractAnnotatedResult lines s = (extractEndIndex lines s, [])) ∧
    (∀ g, findTextJson (extractBlob lines s) = some g →
      jsonParse (unescapeRust g) = none →
      extractAnnotatedResult lines s = (extractEndIndex lines s, [])) ∧
    (∀ g data, findTextJson (extractBlob lines s) = some g →
      jsonParse (unescapeRust g) = some data →
      ¬ hasResultsArray data → ¬ hasSuccessField data →
      extractAnnotatedResult lines s = (extractEndIndex lines s, [])) := by
  refine ⟨?_, ?_, ?_⟩
  · intro h
    simp only [extractAnnotatedResult, h]
  · intro g hg hp
    simp only [extractAnnotatedResult, hg, hp]
  · intro g data hg hp hres hsucc
    simp only [extractAnnotatedResult, hg, hp, formatData_unrecognized data hres hsucc,
      Option.getD_none]

/-- A block whose text field holds `{not json}`: the embedded JSON fails
to parse. -/
def badJsonLines : List (List Char) :=
  [ "Annotated \x7b".data,
    "  text: \"\x7bnot json\x7d\",".data,
    "\x7d".data ]

/-- Witness for C5: on `badJsonLines` the text-field match succeeds but
`JSON.parse` fails, and the summary comes back empty. -/
theorem extract_never_throws_witness :
    extractAnnotatedResult badJsonLines 0 = (extractEndIndex badJsonLines 0, []) :=
  (extract_never_throws badJsonLines 0).2.1 "\x7bnot json\x7d".data rfl rfl

/-! ## C6: the memory-result summary format -/

/-- C6 as stated: whenever the embedded JSON parses to a value with a
`results` array, the extracted summary starts with the pluralized count
line; and a value with a boolean `success` field (and no results array)
formats as `stored`/`failed`. (No well-formedness assumption on the
entries — that is what the counterexample exploits.) -/
def C6Claim : Prop :=
  (∀ (lines : List (List Char)) (s : Nat) (g : List Char) (data : Json) (rs : List Json),
    findTextJson (extractBlob lines s) = some g →
    jsonParse (unescapeRust g) = some data →
    jsonField data "results" = some (Json.arr rs) →
    countLineOf data rs <+: (extractAnnotatedResult lines s).2) ∧
  (∀ (data : Json) (b : Bool),
    (∀ rs, jsonField data "results" ≠ some (Json.arr rs)) →
    jsonField data "success" = some (Json.bool b) →
    formatData data = some (if b then "stored".data else "failed".data))

/-- A block whose embedded JSON is `{"results":[null]}`: a well-formed
results array whose single entry makes the formatter throw. -/
def nullEntryLines : List (List Char) :=
  [ "Annotated \x7b".data,
    "  text: \"\x7b\\\"results\\\":[null]\x7d\",".data,
    "\x7d".data ]

/-- C6 counterexample: on `nullEntryLines` the JSON parses to a value with
a one-element `results` array, but rendering the `null` entry throws a
TypeError (`null.score`), the `catch` collapses the summary to the empty
string, and the summary does not start with the count line `1 result`. -/
theorem extract_format_counterexample : ¬ C6Claim := by
  intro h
  have h1 := h.1 nullEntryLines 0 "\x7b\\\"results\\\":[null]\x7d".data
    (Json.obj [("results".data, Json.arr [Json.null])]) [Json.null] rfl rfl rfl
  have e1 : (extractAnnotatedResult nullEntryLines 0).2 = [] := rfl
  have e2 : countLineOf (Json.obj [("results".data, Json.arr [Json.null])]) [Json.null] =
      "1 result".data := rfl
  rw [e1, e2] at h1
  have := List.prefix_nil.mp h1
  simp at this

theorem mapOption_length (f : α → Option β) :
    ∀ (l : List α) (ys : List β), mapOption f l = some ys → ys.length = l.length := by
  intro l
  induction l with
  | nil => intro ys h; simp only [mapOption, Option.some.injEq] at h; simp [← h]
  | cons a as ih =>
    intro ys h
    simp only [mapOption] at h
    cases hfa : f a with
    | none => rw [hfa] at h; simp at h
    | some b =>
      rw [hfa] at h
      cases hrest : mapOption f as with
      | none => rw [hrest] at h; simp at h
      | some bs =>
        rw [hrest] at h
        simp only [Option.some.injEq] at h
        subst h
        simp [ih bs hrest]

/-- C6 (amended: additionally assuming that rendering the first
`min 3 |results|` entries raises no TypeError — each is non-null with a
string-or-absent `content`; otherwise the error is caught and the summary
is empty): with a `results` array the summary is exactly the pluralized
count line (count field if present, else length; optional mode and token
tags), followed by the rendered entries — at most the first 3, each a
score tag plus a 150-character-truncated snippet with an ellipsis exactly
when truncated — and an `... and N more` line exactly when more than 3
results exist; with a boolean `success` field instead, the summary is
exactly `stored`/`failed`; and the extracted summary is this formatting
of the parsed value. -/
theorem extract_format_shapes :
    (∀ (data : Json) (rs : List Json) (entries : List (List Char)),
      jsonField data "results" = some (Json.arr rs) →
      mapOption renderEntry (rs.take 3) = some entries →
      formatData data = some (intercalateChar '\n'
        (countLineOf data rs :: (entries ++ (if 3 < rs.length then [moreLine rs] else [])))) ∧
      entries.length = min 3 rs.length) ∧
    (∀ (fs : List (List Char × Json)) (c : List Char),
      fs.lookup "content".data = some (Json.str c) →
      renderEntry (Json.obj fs) = some ("  ".data ++ scoreTagOf (Json.obj fs) ++
        ' ' :: (c.take 150 ++ (if 150 < c.length then "...".data else [])))) ∧
    (∀ (fs : List (List Char × Json)),
      fs.lookup "content".data = none →
      renderEntry (Json.obj fs) = some ("  ".data ++ scoreTagOf (Json.obj fs) ++ [' '])) ∧
    (∀ (data : Json) (b : Bool),
      (∀ rs, jsonField data "results" ≠ some (Json.arr rs)) →
      jsonField data "success" = some (Json.bool b) →
      formatData data = some (if b then "stored".data else "failed".data)) ∧
    (∀ (lines : List (List Char)) (s : Nat) (g : List Char) (data : Json),
      findTextJson (extractBlob lines s) = some g →
      jsonParse (unescapeRust g) = some data →
      (extractAnnotatedResult lines s).2 = (formatData data).getD []) := by
  refine ⟨?_, ?_, ?_, ?_, ?_⟩
  · intro data rs entries hres hmap
    cases data with
    | obj fs =>
      constructor
      · show
          (match fs.lookup "results".data with
            | some (.arr rs) => formatResults (Json.obj fs) rs
            | _ =>
              match fs.lookup "success".data with
              | some sv => some (if truthy sv then "stored".data else "failed".data)
              | none => none) = _
        rw [show fs.lookup "results".data = some (Json.arr rs) from hres]
        show formatResults (Json.obj fs) rs = _
        rw [formatResults, hmap]
      · rw [mapOption_length renderEntry _ _ hmap, List.length_take]
    | null => exact absurd hres (by simp [jsonField])
    | bool b => exact absurd hres (by simp [jsonField])
    | num q => exact absurd hres (by simp [jsonField])
    | str s2 => exact absurd hres (by simp [jsonField])
    | arr xs => exact absurd hres (by simp [jsonField])
  · intro fs c hc
    simp only [renderEntry]
    rw [show jsonField (Json.obj fs) "content" = some (Json.str c) from hc]
  · intro fs hc
    simp only [renderEntry]
    rw [show jsonField (Json.obj fs) "content" = none from hc]
    rfl
  · intro data b hres hsucc
    cases data with
    | obj fs =>
      show
        (match fs.lookup "results".data with
          | some (.arr rs) => formatResults (Json.obj fs) rs
          | _ =>
            match fs.lookup "success".data with
            | some sv => some (if truthy sv then "stored".data else "failed".data)
            | none => none) = _
      have hsucc' : fs.lookup "success".data = some (Json.bool b) := hsucc
      cases hr : fs.lookup "results".data with
      | none => rw [hsucc']; cases b <;> rfl
      | some v =>
        cases v with
        | arr rs => exact absurd (show jsonField (Json.obj fs) "results" = _ from hr) (hres rs)
        | null => rw [hsucc']; cases b <;> rfl
        | bool b2 => rw [hsucc']; cases b <;> rfl
        | num q => rw [hsucc']; cases b <;> rfl
        | str s2 => rw [hsucc']; cases b <;> rfl
        | obj fs2 => rw [hsucc']; cases b <;> rfl
    | null => exact absurd hsucc (by simp [jsonField])
    | bool b2 => exact absurd hsucc (by simp [jsonField])
    | num q => exact absurd hsucc (by simp [jsonField])
    | str s2 => exact absurd hsucc (by simp [jsonField])
    | arr xs => exact absurd hsucc (by simp [jsonField])
  · intro lines s g data hg hp
    simp only [extractAnnotatedResult, hg, hp]

/-- Four well-shaped result entries (string contents, no scores). -/
def demoResults : List Json :=
  [ Json.obj [("content".data, Json.str "a".data)],
    Json.obj [("content".data, Json.str "b".data)],
    Json.obj [("content".data, Json.str "c".data)],
    Json.obj [("content".data, Json.str "d".data)] ]

def demoResultsData : Json := Json.obj [("results".data, Json.arr demoResults)]

/-- Witness for C6: applying the format theorem at a four-entry result set
— the summary is the count line, the first three rendered entries, and the
`... and 1 more` line. -/
theorem extract_format_shapes_witness :
    formatData demoResultsData = some (intercalateChar '\n'
      (countLineOf demoResultsData demoResults ::
        (["   a".data, "   b".data, "   c".data] ++
          (if 3 < demoResults.length then [moreLine demoResults] else [])))) ∧
    (["   a".data, "   b".data, "   c".data] : List (List Char)).length =
      min 3 demoResults.length :=
  extract_format_shapes.1 demoResultsData demoResults
    ["   a".data, "   b".data, "   c".data] rfl rfl

/-! ## C10: cursor advance and termination -/

theorem extractLoop_ge (lines : List (List Char)) :
    ∀ (fuel i : Nat) (d : Int) (acc : List (List Char)),
      i ≤ (extractLoop lines fuel i d acc).1 := by
  intro fuel
  induction fuel with
  | zero => intro i d acc; simp [extractLoop]
  | succ fuel ih =>
    intro i d acc
    simp only [extractLoop]
    split
    · split
      · exact le_refl i
      · exact le_trans (Nat.le_succ i) (ih (i + 1) _ _)
    · exact le_refl i

theorem extractLoop_le (lines : List (List Char)) :
    ∀ (fuel i : Nat) (d : Int) (acc : List (List Char)), i ≤ lines.length →
      (extractLoop lines fuel i d acc).1 ≤ lines.length := by
  intro fuel
  induction fuel with
  | zero => intro i d acc h; simpa [extractLoop] using h
  | succ fuel ih =>
    intro i d acc h
    simp only [extractLoop]
    split
    · split
      · exact h
      · rename_i hlt _
        exact ih (i + 1) _ _ (by simp at hlt; omega)
    · exact h

theorem extractEndIndex_ge (lines : List (List Char)) (s : Nat) :
    s + 1 ≤ extractEndIndex lines s :=
  extractLoop_ge lines lines.length (s + 1) 1 []

theorem extractEndIndex_le (lines : List (List Char)) (s : Nat)
    (h : s + 1 ≤ lines.length) : extractEndIndex lines s ≤ lines.length :=
  extractLoop_le lines lines.length (s + 1) 1 [] h

theorem skipAnnotatedBlock_ge (lines : List (List Char)) (s : Nat) :
    s + 1 ≤ skipAnnotatedBlock lines s :=
  skipLoop_ge lines lines.length (s + 1) 1

theorem extract_fst (lines : List (List Char)) (s : Nat) :
    (extractAnnotatedResult lines s).1 = extractEndIndex lines s := by
  rw [extractAnnotatedResult]
  cases findTextJson (extractBlob lines s) with
  | none => rfl
  | some g =>
    show (match jsonParse (unescapeRust g) with
          | none => (extractEndIndex lines s, ([] : List Char))
          | some data => (extractEndIndex lines s, (formatData data).getD [])).1 =
        extractEndIndex lines s
    cases jsonParse (unescapeRust g) with
    | none => rfl
    | some data => rfl

theorem sessionMetaLoop_ge (lines : List (List Char)) :
    ∀ (fuel j : Nat), j ≤ sessionMetaLoop lines fuel j := by
  intro fuel
  induction fuel with
  | zero => intro j; simp [sessionMetaLoop]
  | succ fuel ih =>
    intro j
    simp only [sessionMetaLoop]
    split
    · exact le_trans (Nat.le_succ j) (ih (j + 1))
    · exact le_refl j

theorem noiseSkipLoop_ge (lines : List (List Char)) :
    ∀ (fuel j : Nat), j ≤ noiseSkipLoop lines fuel j := by
  intro fuel
  induction fuel with
  | zero => intro j; simp [noiseSkipLoop]
  | succ fuel ih =>
    intro j
    simp only [noiseSkipLoop]
    split
    · exact le_trans (Nat.le_succ j) (ih (j + 1))
    · exact le_refl j

theorem paramLoop_ge (lines : List (List Char)) :
    ∀ (fuel j : Nat) (acc : List (String × String)), j ≤ (paramLoop lines fuel j acc).1 := by
  intro fuel
  induction fuel with
  | zero => intro j acc; simp [paramLoop]
  | succ fuel ih =>
    intro j acc
    simp only [paramLoop]
    split
    · split
      · exact le_trans (Nat.le_succ j) (ih (j + 1) acc)
      · split
        · exact le_trans (Nat.le_succ j) (ih (j + 1) _)
        · exact le_refl j
    · exact le_refl j

theorem shellOutLoop_ge (lines : List (List Char)) :
    ∀ (fuel j : Nat) (acc : List (List Char)), j ≤ (shellOutLoop lines fuel j acc).1 := by
  intro fuel
  induction fuel with
  | zero => intro j acc; simp [shellOutLoop]
  | succ fuel ih =>
    intro j acc
    simp only [shellOutLoop]
    split
    · split
      · exact le_refl j
      · split
        · calc j ≤ j + 1 := Nat.le_succ j
            _ ≤ skipAnnotatedBlock lines j := skipAnnotatedBlock_ge lines j
            _ ≤ _ := ih _ acc
        · split
          · exact le_trans (Nat.le_succ j) (ih (j + 1) acc)
          · exact le_trans (Nat.le_succ j) (ih (j + 1) _)
    · exact le_refl j

theorem toolOutLoop_ge (lines : List (List Char)) (tool : String) :
    ∀ (fuel j : Nat) (acc : List (List Char)), j ≤ (toolOutLoop lines tool fuel j acc).1 := by
  intro fuel
  induction fuel with
  | zero => intro j acc; simp [toolOutLoop]
  | succ fuel ih =>
    intro j acc
    simp only [toolOutLoop]
    split
    · split
      · exact le_refl j
      · split
        · split
          · calc j ≤ j + 1 := Nat.le_succ j
              _ ≤ (extractAnnotatedResult lines j).1 := by
                  rw [extract_fst]; exact extractEndIndex_ge lines j
              _ ≤ _ := noiseSkipLoop_ge lines _ _
          · calc j ≤ j + 1 := Nat.le_succ j
              _ ≤ skipAnnotatedBlock lines j := skipAnnotatedBlock_ge lines j
              _ ≤ _ := noiseSkipLoop_ge lines _ _
        · split
          · exact le_trans (Nat.le_succ j) (ih (j + 1) acc)
          · exact le_trans (Nat.le_succ j) (ih (j + 1) _)
    · exact le_refl j

/-- Every branch of one loop iteration strictly advances the line cursor. -/
theorem step_advances (lines : List (List Char)) (i : Nat) (evs : List RunEvent)
    (buf : List (List Char)) (h : i < lines.length) :
    i < (step lines i evs buf).1 := by
  simp only [step]
  split
  · exact Nat.lt_succ_self i
  · split
    · split
      · rw [extract_fst]
        exact Nat.lt_of_lt_of_le (Nat.lt_succ_self i) (extractLoop_ge lines _ _ _ _)
      · exact Nat.lt_of_lt_of_le (Nat.lt_succ_self i) (skipLoop_ge lines _ _ _)
    · split
      · exact Nat.lt_succ_self i
      · split
        · exact Nat.lt_of_lt_of_le (Nat.lt_succ_self i) (sessionMetaLoop_ge lines _ _)
        · split
          · exact Nat.lt_of_lt_of_le (Nat.lt_succ_self i) (shellOutLoop_ge lines _ _ _)
          · split
            · exact Nat.lt_of_lt_of_le (Nat.lt_succ_self i)
                (le_trans (paramLoop_ge lines _ _ _) (toolOutLoop_ge lines _ _ _ _))
            · exact Nat.lt_succ_self i

/-- `parseLoop` is fuel-stable: any two fuel amounts covering the
remaining lines give the same result. -/
theorem parseLoop_fuel_stable (lines : List (List Char)) :
    ∀ (f1 f2 i : Nat) (evs : List RunEvent) (buf : List (List Char)),
      lines.length - i ≤ f1 → lines.length - i ≤ f2 →
      parseLoop lines f1 i evs buf = parseLoop lines f2 i evs buf := by
  intro f1
  induction f1 with
  | zero =>
    intro f2 i evs buf h1 h2
    have hi : lines.length ≤ i := by omega
    cases f2 with
    | zero => rfl
    | succ f2 =>
      simp only [parseLoop]
      rw [if_neg (by omega)]
  | succ f1 ih =>
    intro f2 i evs buf h1 h2
    by_cases hi : i < lines.length
    · cases f2 with
      | zero => omega
      | succ f2 =>
        simp only [parseLoop]
        rw [if_pos hi, if_pos hi]
        have hadv := step_advances lines i evs buf hi
        exact ih f2 _ _ _ (by omega) (by omega)
    · cases f2 with
      | zero =>
        simp only [parseLoop]
        rw [if_neg hi]
      | succ f2 =>
        simp only [parseLoop]
        rw [if_neg hi, if_neg hi]

/-- C10: `parseRunLog` terminates on every finite input — each iteration
of the main loop strictly advances the line cursor (`step_advances`
conjunct), `skipAnnotatedBlock` and `extractAnnotatedResult` return an
index strictly greater than their start and at most the number of lines,
and therefore any fuel covering the remaining lines — in particular the
`lines.length` used by `parseRunLog` — yields the same, final result. -/
theorem parse_terminates :
    (∀ (lines : List (List Char)) (s : Nat), s < lines.length →
      s < skipAnnotatedBlock lines s ∧ skipAnnotatedBlock lines s ≤ lines.length ∧
      s < (extractAnnotatedResult lines s).1 ∧
      (extractAnnotatedResult lines s).1 ≤ lines.length) ∧
    (∀ (lines : List (List Char)) (i : Nat) (evs : List RunEvent) (buf : List (List Char)),
      i < lines.length → i < (step lines i evs buf).1) ∧
    (∀ (lines : List (List Char)) (f1 f2 i : Nat) (evs : List RunEvent)
      (buf : List (List Char)), lines.length - i ≤ f1 → lines.length - i ≤ f2 →
      parseLoop lines f1 i evs buf = parseLoop lines f2 i evs buf) := by
  refine ⟨?_, step_advances, parseLoop_fuel_stable⟩
  intro lines s hs
  refine ⟨?_, ?_, ?_, ?_⟩
  · exact Nat.lt_of_lt_of_le (Nat.lt_succ_self s) (skipLoop_ge lines _ _ _)
  · exact skipLoop_le lines _ _ _ (by omega)
  · rw [extract_fst]
    exact Nat.lt_of_lt_of_le (Nat.lt_succ_self s) (extractLoop_ge lines _ _ _ _)
  · rw [extract_fst]
    exact extractLoop_le lines _ _ _ _ (by omega)

/-- Witness for C10 at a concrete input: extra fuel does not change the
parse of a two-line log, and the block skipper advances within bounds. -/
theorem parse_terminates_witness :
    parseLoop (splitLines "a\nb") 50 0 [] [] = parseLoop (splitLines "a\nb") 2 0 [] [] ∧
    0 < skipAnnotatedBlock [['\x7d']] 0 ∧ skipAnnotatedBlock [['\x7d']] 0 ≤ 1 :=
  ⟨parse_terminates.2.2 (splitLines "a\nb") 50 2 0 [] [] (by decide) (by decide),
   (parse_terminates.1 [['\x7d']] 0 (by decide)).1,
   (parse_terminates.1 [['\x7d']] 0 (by decide)).2.1⟩

/-! ## Loop-invariant machinery shared by the event-shape claims -/

/-- Shapes of the events freshly pushed by one iteration of the main loop
(including the `agent_thinking` events pushed by `flushThinking`). The
fields omitted from each record are absent in the source push as well. -/
def PushedShape (lines : List (List Char)) (e : RunEvent) : Prop :=
  (∃ c, e = { type := RunEventType.info, content := c }) ∨
  (∃ c, e = { type := RunEventType.agent_thinking, content := c }) ∨
  (∃ p m c, e = { type := RunEventType.session_start, provider := some p,
                  model := some m, content := c }) ∨
  (∃ (c : List Char) (cont : String), e =
     { type := if (phaseOf c).isSome then RunEventType.phase_marker else RunEventType.shell_cmd,
       command := some (String.mk c), phase := phaseOf c, content := cont }) ∨
  (∃ (t ext : String) (i' : Nat) (res : Option String) (cont : String),
     i' < lines.length ∧ toolHeaderTest (lines.getD i' []) = true ∧
     (res ≠ none → RESULT_CAPTURE_TOOLS.contains t = true) ∧
     e = { type := RunEventType.tool_call, tool := some t, extension := some ext,
           params := (paramLoop lines lines.length (i' + 1) []).2,
           result := res, content := cont })

theorem getD_of_length_le {α : Type} {l : List α} {n : Nat} {d : α}
    (h : l.length ≤ n) : l.getD n d = d := by
  induction l generalizing n with
  | nil => cases n <;> rfl
  | cons a as ih =>
    cases n with
    | zero => simp at h
    | succ n => exact ih (by simpa using h)

theorem mem_flushThinking (evs : List RunEvent) (buf : List (List Char)) :
    ∀ e ∈ flushThinking evs buf,
      e ∈ evs ∨ ∃ c, e = { type := RunEventType.agent_thinking, content := c } := by
  intro e he
  rw [flushThinking] at he
  split at he
  · exact Or.inl he
  · split at he
    · exact Or.inl he
    · rcases List.mem_append.mp he with h | h
      · exact Or.inl h
      · right
        exact ⟨_, List.mem_singleton.mp h⟩

theorem mem_setResultAt :
    ∀ (evs : List RunEvent) (k : Nat) (s : String), ∀ e ∈ setResultAt evs k s,
      e ∈ evs ∨ ∃ e0, evs.get? k = some e0 ∧ e = { e0 with result := some s } := by
  intro evs
  induction evs with
  | nil => intro k s e he; simp [setResultAt] at he
  | cons e0 rest ih =>
    intro k s e he
    cases k with
    | zero =>
      simp only [setResultAt] at he
      rcases List.mem_cons.mp he with h | h
      · exact Or.inr ⟨e0, rfl, h⟩
      · exact Or.inl (List.mem_cons_of_mem e0 h)
    | succ k =>
      simp only [setResultAt] at he
      rcases List.mem_cons.mp he with h | h
      · exact Or.inl (h ▸ List.mem_cons_self e0 rest)
      · rcases ih k s e h with h2 | ⟨e1, hget, heq⟩
        · exact Or.inl (List.mem_cons_of_mem e0 h2)
        · exact Or.inr ⟨e1, hget, heq⟩

theorem findFirst_spec :
    ∀ (evs : List RunEvent) (k : Nat), findFirstUnresolvedMemoryEvent evs = some k →
      ∃ e0, evs.get? k = some e0 ∧ e0.type = RunEventType.tool_call ∧
        RESULT_CAPTURE_TOOLS.contains (e0.tool.getD "") = true := by
  intro evs
  induction evs with
  | nil => intro k h; simp [findFirstUnresolvedMemoryEvent] at h
  | cons e0 rest ih =>
    intro k h
    rw [findFirstUnresolvedMemoryEvent] at h
    split at h
    · rename_i hcond
      simp only [Option.some.injEq] at h
      subst h
      simp only [Bool.and_eq_true, decide_eq_true_eq] at hcond
      exact ⟨e0, rfl, hcond.1.1, hcond.1.2⟩
    · cases hrec : findFirstUnresolvedMemoryEvent rest with
      | none => rw [hrec] at h; simp at h
      | some k0 =>
        rw [hrec] at h
        simp only [Option.map_some', Option.some.injEq] at h
        subst h
        obtain ⟨e1, hget, h1, h2⟩ := ih k0 hrec
        exact ⟨e1, hget, h1, h2⟩

theorem toolOutLoop_result (lines : List (List Char)) (tool : String) :
    ∀ (fuel j : Nat) (acc : List (List Char)),
      (toolOutLoop lines tool fuel j acc).2.2 ≠ none →
      RESULT_CAPTURE_TOOLS.contains tool = true := by
  intro fuel
  induction fuel with
  | zero => intro j acc h; simp [toolOutLoop] at h
  | succ fuel ih =>
    intro j acc h
    simp only [toolOutLoop] at h
    split at h
    · split at h
      · simp at h
      · split at h
        · split at h
          · rename_i hstruct hcap
            exact hcap
          · simp at h
        · split at h
          · exact ih (j + 1) acc h
          · exact ih (j + 1) _ h
    · simp at h

/-- One loop iteration preserves any event predicate that holds of the
freshly pushed shapes and is closed under attaching a result to a
whitelisted tool call. -/
theorem step_preserves (lines : List (List Char)) (i : Nat) (evs : List RunEvent)
    (buf : List (List Char)) (P : RunEvent → Prop)
    (hpush : ∀ e, PushedShape lines e → P e)
    (hupd : ∀ e s, P e → e.type = RunEventType.tool_call →
      RESULT_CAPTURE_TOOLS.contains (e.tool.getD "") = true → P { e with result := some s })
    (hevs : ∀ e ∈ evs, P e) :
    ∀ e ∈ (step lines i evs buf).2.1, P e := by
  have hflush : ∀ e ∈ flushThinking evs buf, P e := by
    intro e he
    rcases mem_flushThinking evs buf e he with h | ⟨c, rfl⟩
    · exact hevs e h
    · exact hpush _ (Or.inr (Or.inl ⟨c, rfl⟩))
  intro e he
  simp only [step] at he
  split at he
  · exact hevs e he
  · split at he
    · split at he
      · rename_i k hfind
        split at he
        · exact hevs e he
        · rcases mem_setResultAt evs k _ e he with h | ⟨e0, hget, rfl⟩
          · exact hevs e h
          · obtain ⟨e1, hget1, ht, hw⟩ := findFirst_spec evs k hfind
            rw [hget1] at hget
            injection hget with hget
            subst hget
            exact hupd e1 _ (hevs e1 (List.get?_mem hget1)) ht hw
      · exact hevs e he
    · split at he
      · rcases List.mem_append.mp he with h | h
        · exact hflush e h
        · have := List.mem_singleton.mp h
          subst this
          exact hpush _ (Or.inl ⟨_, rfl⟩)
      · split at he
        · rcases List.mem_append.mp he with h | h
          · exact hflush e h
          · have := List.mem_singleton.mp h
            subst this
            exact hpush _ (Or.inr (Or.inr (Or.inl ⟨_, _, _, rfl⟩)))
        · split at he
          · rcases List.mem_append.mp he with h | h
            · exact hflush e h
            · have := List.mem_singleton.mp h
              subst this
              exact hpush _ (Or.inr (Or.inr (Or.inr (Or.inl ⟨_, _, rfl⟩))))
          · split at he
            · rename_i t ext hmatch
              rcases List.mem_append.mp he with h | h
              · exact hflush e h
              · have := List.mem_singleton.mp h
                subst this
                have hlt : i < lines.length := by
                  by_contra hge
                  rw [getD_of_length_le (by omega)] at hmatch
                  simp [toolHeaderMatch, dropLit] at hmatch
                refine hpush _ (Or.inr (Or.inr (Or.inr (Or.inr
                  ⟨String.mk t, String.mk ext, i, _, _, hlt, ?_, ?_, rfl⟩))))
                · rw [toolHeaderTest, hmatch]
                  rfl
                · intro hne
                  exact toolOutLoop_result lines (String.mk t) _ _ _ hne
            · exact hevs e he

/-- The main loop preserves any predicate preserved by `step`. -/
theorem parseLoop_preserves (lines : List (List Char)) (P : RunEvent → Prop)
    (hpush : ∀ e, PushedShape lines e → P e)
    (hupd : ∀ e s, P e → e.type = RunEventType.tool_call →
      RESULT_CAPTURE_TOOLS.contains (e.tool.getD "") = true → P { e with result := some s }) :
    ∀ (fuel i : Nat) (evs : List RunEvent) (buf : List (List Char)),
      (∀ e ∈ evs, P e) → ∀ e ∈ parseLoop lines fuel i evs buf, P e := by
  intro fuel
  induction fuel with
  | zero =>
    intro i evs buf hevs e he
    simp only [parseLoop] at he
    rcases mem_flushThinking evs buf e he with h | ⟨c, rfl⟩
    · exact hevs e h
    · exact hpush _ (Or.inr (Or.inl ⟨c, rfl⟩))
  | succ fuel ih =>
    intro i evs buf hevs e he
    simp only [parseLoop] at he
    split at he
    · exact ih _ _ _ (step_preserves lines i evs buf P hpush hupd hevs) e he
    · rcases mem_flushThinking evs buf e he with h | ⟨c, rfl⟩
      · exact hevs e h
      · exact hpush _ (Or.inr (Or.inl ⟨c, rfl⟩))

theorem mem_indexMap :
    ∀ (evs : List RunEvent) (k : Nat), ∀ e' ∈ indexMap evs k,
      ∃ e ∈ evs, e' = { e with index := e'.index } := by
  intro evs
  induction evs with
  | nil => intro k e' he'; simp [indexMap] at he'
  | cons e rest ih =>
    intro k e' he'
    simp only [indexMap] at he'
    rcases List.mem_cons.mp he' with h | h
    · exact ⟨e, List.mem_cons_self e rest, by rw [h]⟩
    · obtain ⟨e0, hmem, heq⟩ := ih (k + 1) e' h
      exact ⟨e0, List.mem_cons_of_mem e hmem, heq⟩

theorem mem_progressMap :
    ∀ (evs : List RunEvent) (N k : Nat), ∀ e' ∈ progressMap N k evs,
      ∃ e ∈ evs, e' = { e with progressPercent := e'.progressPercent } ∧
        (e.type = RunEventType.phase_marker →
          e'.progressPercent = phasePctOf e.phase) := by
  intro evs
  induction evs with
  | nil => intro N k e' he'; simp [progressMap] at he'
  | cons e rest ih =>
    intro N k e' he'
    simp only [progressMap] at he'
    split at he'
    · rename_i hsig
      rcases List.mem_cons.mp he' with h | h
      · refine ⟨e, List.mem_cons_self e rest, by rw [h], ?_⟩
        intro hph
        rw [isSignificant, hph] at hsig
        simp at hsig
      · obtain ⟨e0, hmem, heq, himp⟩ := ih N (k + 1) e' h
        exact ⟨e0, List.mem_cons_of_mem e hmem, heq, himp⟩
    · split at he'
      · rename_i hph
        rcases List.mem_cons.mp he' with h | h
        · exact ⟨e, List.mem_cons_self e rest, by rw [h], fun _ => by rw [h]⟩
        · obtain ⟨e0, hmem, heq, himp⟩ := ih N k e' h
          exact ⟨e0, List.mem_cons_of_mem e hmem, heq, himp⟩
      · rename_i hph
        rcases List.mem_cons.mp he' with h | h
        · exact ⟨e, List.mem_cons_self e rest, by rw [h], fun hc => absurd hc hph⟩
        · obtain ⟨e0, hmem, heq, himp⟩ := ih N k e' h
          exact ⟨e0, List.mem_cons_of_mem e hmem, heq, himp⟩

/-- Events of the final output come from assembled events, with only
`index` and `progressPercent` rewritten — and a `phase_marker` receives
exactly its milestone percentage. -/
theorem mem_assignProgress (evs : List RunEvent) :
    ∀ e' ∈ assignProgress evs,
      ∃ e ∈ evs, e' = { e with index := e'.index, progressPercent := e'.progressPercent } ∧
        (e.type = RunEventType.phase_marker →
          e'.progressPercent = phasePctOf e.phase) := by
  intro e' he'
  obtain ⟨e1, hmem1, heq1, himp1⟩ := mem_progressMap (indexMap evs 0) _ 0 e' he'
  obtain ⟨e0, hmem0, heq0⟩ := mem_indexMap evs 0 e1 hmem1
  refine ⟨e0, hmem0, ?_, ?_⟩
  · rw [heq1, heq0]
  · intro hph
    have h2 := himp1 (by rw [heq0]; exact hph)
    have hphase : e1.phase = e0.phase := by rw [heq0]
    rw [hphase] at h2
    exact h2

/-! ## C3: results only on whitelisted tool calls -/

/-- The preserved invariant for C3. -/
def ResInv (e : RunEvent) : Prop :=
  e.result ≠ none →
  e.type = RunEventType.tool_call ∧
    RESULT_CAPTURE_TOOLS.contains (e.tool.getD "") = true

theorem parseLoop_resInv (lines : List (List Char)) (fuel i : Nat)
    (evs : List RunEvent) (buf : List (List Char)) (hevs : ∀ e ∈ evs, ResInv e) :
    ∀ e ∈ parseLoop lines fuel i evs buf, ResInv e := by
  apply parseLoop_preserves lines ResInv ?_ ?_ fuel i evs buf hevs
  · intro e hshape
    rcases hshape with ⟨c, rfl⟩ | ⟨c, rfl⟩ | ⟨p, m, c, rfl⟩ | ⟨c, cont, rfl⟩ |
      ⟨t, ext, i', res, cont, _, _, hres, rfl⟩
    · intro h; exact absurd rfl h
    · intro h; exact absurd rfl h
    · intro h; exact absurd rfl h
    · intro h; exact absurd rfl h
    · intro h
      exact ⟨rfl, hres h⟩
  · intro e s hP htype hcont
    intro _
    exact ⟨htype, hcont⟩

set_option maxRecDepth 2000 in
/-- C3: for every input, a `tool_call` event whose tool is not in the
result-capturing whitelist `{memory_search, memory_add, memory_forget,
memory_update}` has no `result`, and events that are not `tool_call`
never carry `result` — neither the inline extraction path nor the
orphaned-block attachment path ever sets one elsewhere. -/
theorem result_whitelist_isolation (raw : String) :
    ∀ e ∈ parseRunLog raw,
      (e.type = RunEventType.tool_call →
        RESULT_CAPTURE_TOOLS.contains (e.tool.getD "") = false → e.result = none) ∧
      (e.type ≠ RunEventType.tool_call → e.result = none) := by
  intro e he
  obtain ⟨e0, hmem0, heq, _⟩ := mem_assignProgress _ e he
  have hinv : ResInv e0 :=
    parseLoop_resInv (splitLines raw) (splitLines raw).length 0 [] [] (by intro x hx; simp at hx)
      e0 hmem0
  have htype : e.type = e0.type := by rw [heq]
  have htool : e.tool = e0.tool := by rw [heq]
  have hres : e.result = e0.result := by rw [heq]
  constructor
  · intro ht hwl
    cases hr : e0.result with
    | none => rw [hres, hr]
    | some s =>
      obtain ⟨_, hw⟩ := hinv (by rw [hr]; simp)
      rw [← htool] at hw
      rw [hw] at hwl
      simp at hwl
  · intro ht
    cases hr : e0.result with
    | none => rw [hres, hr]
    | some s =>
      obtain ⟨hc, _⟩ := hinv (by rw [hr]; simp)
      rw [← htype] at hc
      exact absurd hc ht

set_option maxRecDepth 2000 in
/-- Witness for C3 at a concrete input: the `$ ls` shell event is not a
tool call and carries no result. -/
theorem result_whitelist_isolation_witness :
    ({ type := RunEventType.shell_cmd, command := some "ls",
       content := "$ ls" } : RunEvent).result = none :=
  (result_whitelist_isolation "$ ls"
      { type := RunEventType.shell_cmd, command := some "ls", content := "$ ls" }
      (by decide)).2 (by decide)

/-! ## C8: shell-command phase classification -/

/-- The preserved invariant for C8: shell events carry the phase their
command classifies to. -/
def PhaseInv (e : RunEvent) : Prop :=
  (e.type = RunEventType.shell_cmd →
    e.phase = none ∧ ∃ c, e.command = some (String.mk c) ∧ phaseOf c = none) ∧
  (e.type = RunEventType.phase_marker →
    ∃ c, e.command = some (String.mk c) ∧ e.phase = phaseOf c ∧ (phaseOf c).isSome = true)

theorem parseLoop_phaseInv (lines : List (List Char)) (fuel i : Nat)
    (evs : List RunEvent) (buf : List (List Char)) (hevs : ∀ e ∈ evs, PhaseInv e) :
    ∀ e ∈ parseLoop lines fuel i evs buf, PhaseInv e := by
  apply parseLoop_preserves lines PhaseInv ?_ ?_ fuel i evs buf hevs
  · intro e hshape
    rcases hshape with ⟨c, rfl⟩ | ⟨c, rfl⟩ | ⟨p, m, c, rfl⟩ | ⟨c, cont, rfl⟩ |
      ⟨t, ext, i', res, cont, _, _, _, rfl⟩
    · exact ⟨fun h => by simp at h, fun h => by simp at h⟩
    · exact ⟨fun h => by simp at h, fun h => by simp at h⟩
    · exact ⟨fun h => by simp at h, fun h => by simp at h⟩
    · by_cases hph : (phaseOf c).isSome = true
      · constructor
        · intro h
          simp only [hph, if_true] at h
          exact absurd h (by simp)
        · intro _
          exact ⟨c, rfl, rfl, hph⟩
      · constructor
        · intro _
          have hnone : phaseOf c = none := by
            cases hcase : phaseOf c with
            | none => rfl
            | some p => rw [hcase] at hph; simp at hph
          exact ⟨hnone, c, rfl, hnone⟩
        · intro h
          simp only [hph, if_false, Bool.false_eq_true] at h
          exact absurd h (by simp)
    · exact ⟨fun h => by simp at h, fun h => by simp at h⟩
  · intro e s hP htype _
    constructor
    · intro h
      have : e.type = RunEventType.shell_cmd := h
      rw [htype] at this
      simp at this
    · intro h
      have : e.type = RunEventType.phase_marker := h
      rw [htype] at this
      simp at this

set_option maxRecDepth 2000 in
/-- C8: every `$ command` line is emitted as a `phase_marker` exactly when
the command contains a phase keyword — `git clone` → cloning (5),
`goose run`/`AGENT_COMMAND` → agent (10), `git add`/`git commit` →
committing (88), `git push` → pushing (95), in the code's priority order —
and as a plain `shell_cmd` with no phase otherwise. A `phase_marker`'s
progressPercent is the milestone of its phase; the keyword table itself is
confirmed on representative commands (including `$ ls` → no phase). -/
theorem shell_phase_classification (raw : String) :
    (∀ e ∈ parseRunLog raw,
      (e.type = RunEventType.shell_cmd →
        e.phase = none ∧ ∃ c, e.command = some (String.mk c) ∧ phaseOf c = none) ∧
      (e.type = RunEventType.phase_marker →
        ∃ c, e.command = some (String.mk c) ∧ e.phase = phaseOf c ∧
          (phaseOf c).isSome = true ∧ e.progressPercent = phasePctOf (phaseOf c))) ∧
    phaseOf "git clone repo".data = some "cloning" ∧ phasePctOf (some "cloning") = 5 ∧
    phaseOf "goose run task".data = some "agent" ∧ phasePctOf (some "agent") = 10 ∧
    phaseOf "git add . && git commit -m x".data = some "committing" ∧
      phasePctOf (some "committing") = 88 ∧
    phaseOf "git push origin".data = some "pushing" ∧ phasePctOf (some "pushing") = 95 ∧
    phaseOf "ls".data = none := by
  refine ⟨?_, by decide, by decide, by decide, by decide, by decide, by decide,
    by decide, by decide, by decide⟩
  intro e he
  obtain ⟨e0, hmem0, heq, himp⟩ := mem_assignProgress _ e he
  have hinv : PhaseInv e0 :=
    parseLoop_phaseInv (splitLines raw) (splitLines raw).length 0 [] []
      (by intro x hx; simp at hx) e0 hmem0
  have htype : e.type = e0.type := by rw [heq]
  have hcmd : e.command = e0.command := by rw [heq]
  have hphase : e.phase = e0.phase := by rw [heq]
  constructor
  · intro h
    obtain ⟨hnone, c, hc, hpc⟩ := hinv.1 (htype ▸ h)
    exact ⟨hphase ▸ hnone, c, hcmd ▸ hc, hpc⟩
  · intro h
    obtain ⟨c, hc, hp, hs⟩ := hinv.2 (htype ▸ h)
    refine ⟨c, hcmd ▸ hc, by rw [hphase, hp], hs, ?_⟩
    have hpp := himp (htype ▸ h)
    rw [hpp, hp]

set_option maxRecDepth 2000 in
/-- Witness for C8: `$ git clone repo` parses to a `phase_marker` whose
phase is `cloning` with progress 5. -/
theorem shell_phase_classification_witness :
    ∃ c, ({ type := RunEventType.phase_marker, progressPercent := 5,
            command := some "git clone repo", phase := some "cloning",
            content := "$ git clone repo" } : RunEvent).command = some (String.mk c) ∧
      ({ type := RunEventType.phase_marker, progressPercent := 5,
         command := some "git clone repo", phase := some "cloning",
         content := "$ git clone repo" } : RunEvent).phase = phaseOf c ∧
      (phaseOf c).isSome = true ∧
      ({ type := RunEventType.phase_marker, progressPercent := 5,
         command := some "git clone repo", phase := some "cloning",
         content := "$ git clone repo" } : RunEvent).progressPercent =
        phasePctOf (phaseOf c) :=
  ((shell_phase_classification "$ git clone repo").1
      { type := RunEventType.phase_marker, progressPercent := 5,
        command := some "git clone repo", phase := some "cloning",
        content := "$ git clone repo" }
      (by decide)).2 (by decide)

/-! ## C7: parameter collection -/

/-- The pure fold describing what `paramLoop` accumulates over a range of
line indices: parameter-shaped non-noise lines are inserted in order,
noise lines are skipped. -/
def paramFold (lines : List (List Char)) (acc : List (String × String))
    (ts : List Nat) : List (String × String) :=
  ts.foldl
    (fun a t =>
      let line := lines.getD t []
      if isNoiseLine line then a
      else
        match toolParamMatch line with
        | some kv => paramsInsert (String.mk kv.1) (String.mk kv.2) a
        | none => a)
    acc

/-- The declarative characterization of `paramLoop`: it stops at the first
line that is neither noise nor parameter-shaped (or at end of input), and
its mapping is the in-order fold of the parameter lines scanned, with
noise skipped. -/
theorem paramLoop_spec (lines : List (List Char)) :
    ∀ (fuel j : Nat) (acc : List (String × String)),
      lines.length - j ≤ fuel → j ≤ lines.length →
      ∃ j', j ≤ j' ∧ j' ≤ lines.length ∧
        paramLoop lines fuel j acc = (j', paramFold lines acc (List.range' j (j' - j))) ∧
        (∀ t, j ≤ t → t < j' →
          isNoiseLine (lines.getD t []) = true ∨
            (toolParamMatch (lines.getD t [])).isSome = true) ∧
        (j' = lines.length ∨
          (isNoiseLine (lines.getD j' []) = false ∧
            (toolParamMatch (lines.getD j' [])).isSome = false)) := by
  intro fuel
  induction fuel with
  | zero =>
    intro j acc hfuel hle
    have hj : j = lines.length := by omega
    refine ⟨j, le_refl j, by omega, ?_, ?_, Or.inl hj⟩
    · simp [paramLoop, paramFold]
    · intro t h1 h2
      omega
  | succ fuel ih =>
    intro j acc hfuel hle
    rcases Nat.eq_or_lt_of_le hle with heq | hlt
    · refine ⟨j, le_refl j, by omega, ?_, ?_, Or.inl heq⟩
      · simp only [paramLoop]
        rw [if_neg (by omega)]
        simp [paramFold]
      · intro t h1 h2
        omega
    · by_cases hnoise : isNoiseLine (lines.getD j []) = true
      · obtain ⟨j', h1, h2, h3, h4, h5⟩ := ih (j + 1) acc (by omega) (by omega)
        refine ⟨j', by omega, h2, ?_, ?_, h5⟩
        · simp only [paramLoop]
          rw [if_pos hlt, if_pos hnoise, h3]
          have hr : List.range' j (j' - j) = j :: List.range' (j + 1) (j' - (j + 1)) := by
            have : j' - j = (j' - (j + 1)) + 1 := by omega
            rw [this, List.range'_succ]
          rw [hr]
          simp only [paramFold, List.foldl_cons]
          rw [if_pos hnoise]
        · intro t ht1 ht2
          rcases Nat.eq_or_lt_of_le ht1 with rfl | ht
          · exact Or.inl hnoise
          · exact h4 t ht ht2
      · cases hpm : toolParamMatch (lines.getD j []) with
        | some kv =>
          obtain ⟨j', h1, h2, h3, h4, h5⟩ :=
            ih (j + 1) (paramsInsert (String.mk kv.1) (String.mk kv.2) acc) (by omega) (by omega)
          refine ⟨j', by omega, h2, ?_, ?_, h5⟩
          · simp only [paramLoop]
            rw [if_pos hlt, if_neg hnoise]
            have hkv : kv = (kv.1, kv.2) := rfl
            rw [show toolParamMatch (lines.getD j []) = some (kv.1, kv.2) from hkv ▸ hpm]
            show paramLoop lines fuel (j + 1) (paramsInsert (String.mk kv.1) (String.mk kv.2) acc) =
              (j', paramFold lines acc (List.range' j (j' - j)))
            rw [h3]
            have hr : List.range' j (j' - j) = j :: List.range' (j + 1) (j' - (j + 1)) := by
              have : j' - j = (j' - (j + 1)) + 1 := by omega
              rw [this, List.range'_succ]
            rw [hr]
            simp only [paramFold, List.foldl_cons]
            rw [if_neg hnoise, hpm]
          · intro t ht1 ht2
            rcases Nat.eq_or_lt_of_le ht1 with rfl | ht
            · exact Or.inr (by rw [hpm]; rfl)
            · exact h4 t ht ht2
        | none =>
          refine ⟨j, le_refl j, by omega, ?_, ?_,
            Or.inr ⟨by simpa using hnoise, by rw [hpm]; rfl⟩⟩
          · simp only [paramLoop]
            rw [if_pos hlt, if_neg hnoise, hpm]
            simp [paramFold]
          · intro t h1 h2
            omega

/-- The preserved invariant for C7: a tool call's params come from
`paramLoop` run just after its header line. -/
def ParamsProvenance (lines : List (List Char)) (e : RunEvent) : Prop :=
  e.type = RunEventType.tool_call →
    ∃ i', i' < lines.length ∧ toolHeaderTest (lines.getD i' []) = true ∧
      e.params = (paramLoop lines lines.length (i' + 1) []).2

theorem parseLoop_paramsProvenance (lines : List (List Char)) (fuel i : Nat)
    (evs : List RunEvent) (buf : List (List Char))
    (hevs : ∀ e ∈ evs, ParamsProvenance lines e) :
    ∀ e ∈ parseLoop lines fuel i evs buf, ParamsProvenance lines e := by
  apply parseLoop_preserves lines (ParamsProvenance lines) ?_ ?_ fuel i evs buf hevs
  · intro e hshape
    rcases hshape with ⟨c, rfl⟩ | ⟨c, rfl⟩ | ⟨p, m, c, rfl⟩ | ⟨c, cont, rfl⟩ |
      ⟨t, ext, i', res, cont, hlt, hhead, _, rfl⟩
    · intro h; simp at h
    · intro h; simp at h
    · intro h; simp at h
    · intro h
      by_cases hph : (phaseOf c).isSome = true
      · simp only [hph, if_true] at h
        exact absurd h (by simp)
      · simp only [hph] at h
        exact absurd h (by simp)
    · intro _
      exact ⟨i', hlt, hhead, rfl⟩
  · intro e s hP htype _
    intro _
    obtain ⟨i', hlt, hhead, hparams⟩ := hP htype
    exact ⟨i', hlt, hhead, hparams⟩

/-- Modelled from the claim's words for C7 ("contiguous `key: value` lines
immediately following the header, **before any other structural line or
noise line**"): a strict collector that also stops at the first noise
line. -/
def paramLoopStrict (lines : List (List Char)) :
    Nat → Nat → List (String × String) → Nat × List (String × String)
  | 0, j, acc => (j, acc)
  | fuel + 1, j, acc =>
    if j < lines.length then
      let line := lines.getD j []
      if isNoiseLine line then (j, acc)
      else
        match toolParamMatch line with
        | some (k, v) =>
          paramLoopStrict lines fuel (j + 1) (paramsInsert (String.mk k) (String.mk v) acc)
        | none => (j, acc)
    else (j, acc)

/-- C7 as stated: every tool_call's params reflect only the contiguous
parameter lines before any structural or noise line. -/
def C7Claim : Prop :=
  ∀ raw, ∀ e ∈ parseRunLog raw, e.type = RunEventType.tool_call →
    ∃ i', i' < (splitLines raw).length ∧
      toolHeaderTest ((splitLines raw).getD i' []) = true ∧
      e.params = (paramLoopStrict (splitLines raw) (splitLines raw).length (i' + 1) []).2

/-- A tool call whose parameter lines are interrupted by a blank (noise)
line: `query: x`, blank, `limit: 5`. -/
def noisyParamsInput : String :=
  "─── memory_search | cems ──\nquery: x\n\nlimit: 5\nstop here"

/-- The single event the parser produces for `noisyParamsInput`. -/
def noisyParamsEvent : RunEvent :=
  { type := RunEventType.tool_call, index := 0, progressPercent := pctQ 1 1,
    tool := some "memory_search", extension := some "cems",
    params := [("query", "x"), ("limit", "5")],
    content := "memory_search: \"x\"\nstop here" }

set_option maxRecDepth 4000 in
/-- C7 counterexample: the code *skips* noise lines during parameter
collection instead of stopping at them — on `noisyParamsInput` the emitted
params include `limit`, which lies beyond the first noise line, while the
claim's strict reading collects only `query`. -/
theorem params_noise_counterexample : ¬ C7Claim := by
  intro h
  have hmem : noisyParamsEvent ∈ parseRunLog noisyParamsInput := by
    have heq : parseRunLog noisyParamsInput = [noisyParamsEvent] := rfl
    rw [heq]
    exact List.mem_singleton.mpr rfl
  obtain ⟨i', hlt, hhead, hparams⟩ := h noisyParamsInput noisyParamsEvent hmem rfl
  have hlen : (splitLines noisyParamsInput).length = 5 := by decide
  rw [hlen] at hlt
  interval_cases i'
  · have hstrict :
        (paramLoopStrict (splitLines noisyParamsInput)
          (splitLines noisyParamsInput).length (0 + 1) []).2 = [("query", "x")] := by decide
    rw [hstrict] at hparams
    simp [noisyParamsEvent] at hparams
  · exact absurd hhead (by decide)
  · exact absurd hhead (by decide)
  · exact absurd hhead (by decide)
  · exact absurd hhead (by decide)

set_option maxRecDepth 2000 in
/-- C7 (amended: noise lines interleaved among the parameter lines are
*skipped*, not stopping collection — collection stops at the first
following line that is neither parameter-shaped nor noise): every emitted
tool_call's `params` is the in-order fold (insertion order preserved, later
duplicates updating in place) of the parameter-shaped non-noise lines
scanned from the line after its header up to that stop line. -/
theorem params_collection :
    (∀ raw, ∀ e ∈ parseRunLog raw, e.type = RunEventType.tool_call →
      ∃ i', i' < (splitLines raw).length ∧
        toolHeaderTest ((splitLines raw).getD i' []) = true ∧
        e.params = (paramLoop (splitLines raw) (splitLines raw).length (i' + 1) []).2) ∧
    (∀ (lines : List (List Char)) (fuel j : Nat) (acc : List (String × String)),
      lines.length - j ≤ fuel → j ≤ lines.length →
      ∃ j', j ≤ j' ∧ j' ≤ lines.length ∧
        paramLoop lines fuel j acc = (j', paramFold lines acc (List.range' j (j' - j))) ∧
        (∀ t, j ≤ t → t < j' →
          isNoiseLine (lines.getD t []) = true ∨
            (toolParamMatch (lines.getD t [])).isSome = true) ∧
        (j' = lines.length ∨
          (isNoiseLine (lines.getD j' []) = false ∧
            (toolParamMatch (lines.getD j' [])).isSome = false))) := by
  constructor
  · intro raw e he htype
    obtain ⟨e0, hmem0, heq, _⟩ := mem_assignProgress _ e he
    have hinv : ParamsProvenance (splitLines raw) e0 :=
      parseLoop_paramsProvenance (splitLines raw) (splitLines raw).length 0 [] []
        (by intro x hx; simp at hx) e0 hmem0
    have htype0 : e0.type = RunEventType.tool_call := by
      have : e.type = e0.type := by rw [heq]
      rw [← this]; exact htype
    obtain ⟨i', hlt, hhead, hparams⟩ := hinv htype0
    refine ⟨i', hlt, hhead, ?_⟩
    have : e.params = e0.params := by rw [heq]
    rw [this, hparams]
  · exact fun lines => paramLoop_spec lines

/-- Witness for C7's characterization on a concrete two-line snippet: the
loop consumes `key: v`, stops at `other`. -/
theorem params_collection_witness :
    ∃ j', 0 ≤ j' ∧ j' ≤ (["key: v".data, "other".data] : List (List Char)).length ∧
      paramLoop ["key: v".data, "other".data] 2 0 [] =
        (j', paramFold ["key: v".data, "other".data] [] (List.range' 0 (j' - 0))) ∧
      (∀ t, 0 ≤ t → t < j' →
        isNoiseLine ((["key: v".data, "other".data] : List (List Char)).getD t []) = true ∨
          (toolParamMatch ((["key: v".data, "other".data] : List (List Char)).getD t [])).isSome
            = true) ∧
      (j' = (["key: v".data, "other".data] : List (List Char)).length ∨
        (isNoiseLine ((["key: v".data, "other".data] : List (List Char)).getD j' []) = false ∧
          (toolParamMatch
            ((["key: v".data, "other".data] : List (List Char)).getD j' [])).isSome = false)) :=
  params_collection.2 ["key: v".data, "other".data] 2 0 [] (by decide) (by decide)

/-! ## C2: the progress assignment -/

/-- The significant subsequence of the parse (type in
`{tool_call, agent_thinking, session_start}`). -/
def sigEvents (raw : String) : List RunEvent :=
  (parseRunLog raw).filter isSignificant

/-- A record update that only touches `progressPercent` keeps significance. -/
theorem isSignificant_set_pp (e : RunEvent) (q : ℚ) :
    isSignificant { e with progressPercent := q } = isSignificant e := rfl

/-- The progress pass maps the k-th significant event (0-based `j`, with
`k` significant events already counted) to `pctQ N (k + 1 + j)`. -/
theorem progressMap_sig_pp (N : Nat) :
    ∀ (evs : List RunEvent) (k : Nat),
      ((progressMap N k evs).filter isSignificant).map (·.progressPercent) =
        (List.range (evs.filter isSignificant).length).map (fun j => pctQ N (k + 1 + j)) := by
  intro evs
  induction evs with
  | nil => intro k; simp [progressMap]
  | cons e rest ih =>
    intro k
    by_cases hsig : isSignificant e = true
    · rw [show progressMap N k (e :: rest) =
          { e with progressPercent := pctQ N (k + 1) } :: progressMap N (k + 1) rest by
            simp only [progressMap]; rw [if_pos hsig]]
      rw [List.filter_cons_of_pos (by rw [isSignificant_set_pp]; exact hsig)]
      rw [List.filter_cons_of_pos hsig]
      simp only [List.map_cons]
      rw [ih (k + 1)]
      simp only [List.length_cons]
      rw [List.range_succ_eq_map]
      simp only [List.map_cons, List.map_map]
      congr 1
      apply List.map_congr_left
      intro j _
      simp only [Function.comp_apply]
      congr 1
      omega
    · have hsig' : isSignificant e = false := by simpa using hsig
      by_cases hph : e.type = RunEventType.phase_marker
      · rw [show progressMap N k (e :: rest) =
            { e with progressPercent := phasePctOf e.phase } :: progressMap N k rest by
              simp only [progressMap]; rw [if_neg (by simp [hsig']), if_pos hph]]
        rw [List.filter_cons_of_neg (by rw [isSignificant_set_pp]; simp [hsig'])]
        rw [List.filter_cons_of_neg (by simp [hsig'])]
        exact ih k
      · rw [show progressMap N k (e :: rest) = e :: progressMap N k rest by
            simp only [progressMap]; rw [if_neg (by simp [hsig']), if_neg hph]]
        rw [List.filter_cons_of_neg (by simp [hsig'])]
        rw [List.filter_cons_of_neg (by simp [hsig'])]
        exact ih k

theorem indexMap_sig_pp :
    ∀ (evs : List RunEvent) (k : Nat),
      ((indexMap evs k).filter isSignificant).map (·.progressPercent) =
        (evs.filter isSignificant).map (·.progressPercent) := by
  intro evs
  induction evs with
  | nil => intro k; simp [indexMap]
  | cons e rest ih =>
    intro k
    simp only [indexMap]
    by_cases hsig : isSignificant e = true
    · rw [List.filter_cons_of_pos (show isSignificant { e with index := k } = true from hsig)]
      rw [List.filter_cons_of_pos hsig]
      simp only [List.map_cons]
      rw [ih (k + 1)]
    · have hsig' : isSignificant e = false := by simpa using hsig
      rw [List.filter_cons_of_neg (by
        show ¬ isSignificant { e with index := k } = true
        simp [show isSignificant { e with index := k } = isSignificant e from rfl, hsig'])]
      rw [List.filter_cons_of_neg (by simp [hsig'])]
      exact ih (k + 1)

theorem indexMap_sig_length :
    ∀ (evs : List RunEvent) (k : Nat),
      ((indexMap evs k).filter isSignificant).length = (evs.filter isSignificant).length := by
  intro evs k
  have h := indexMap_sig_pp evs k
  have := congrArg List.length h
  simpa using this

/-- The significant events of the final output carry exactly the
proportional percentages `pctQ N 1, …, pctQ N N`. -/
theorem parseRunLog_sig_pp (raw : String) :
    (sigEvents raw).map (·.progressPercent) =
      (List.range (sigEvents raw).length).map (fun j => pctQ (sigEvents raw).length (1 + j)) := by
  have hunfold : sigEvents raw =
      (assignProgress (parseLoop (splitLines raw) (splitLines raw).length 0 [] [])).filter
        isSignificant := rfl
  set evs0 := parseLoop (splitLines raw) (splitLines raw).length 0 [] [] with hevs0
  have hN : (sigEvents raw).length = (evs0.filter isSignificant).length := by
    rw [hunfold]
    show ((progressMap ((evs0.filter isSignificant).length) 0 (indexMap evs0 0)).filter
      isSignificant).length = _
    have h1 := congrArg List.length
      (progressMap_sig_pp ((evs0.filter isSignificant).length) (indexMap evs0 0) 0)
    simp only [List.length_map, List.length_range] at h1
    rw [h1, indexMap_sig_length]
  rw [hN]
  rw [hunfold]
  show ((progressMap ((evs0.filter isSignificant).length) 0 (indexMap evs0 0)).filter
      isSignificant).map (·.progressPercent) = _
  rw [progressMap_sig_pp]
  rw [indexMap_sig_length]

theorem pctQ_mono (N : Nat) {k1 k2 : Nat} (h : k1 ≤ k2) : pctQ N k1 ≤ pctQ N k2 := by
  by_cases hN : 0 < N
  · rw [pctQ_eq_floor_form N k1 hN, pctQ_eq_floor_form N k2 hN]
    have hN' : (0 : ℚ) < (N : ℚ) := by exact_mod_cast hN
    have hk : (k1 : ℚ) ≤ (k2 : ℚ) := by exact_mod_cast h
    have hstep : (k1 : ℚ) / (N : ℚ) * 1000 + 1 / 2 ≤ (k2 : ℚ) / (N : ℚ) * 1000 + 1 / 2 := by
      gcongr
    have hfl := Int.floor_le_floor hstep
    have hcast : ((⌊(k1 : ℚ) / (N : ℚ) * 1000 + 1 / 2⌋ : Int) : ℚ) ≤
        ((⌊(k2 : ℚ) / (N : ℚ) * 1000 + 1 / 2⌋ : Int) : ℚ) := by exact_mod_cast hfl
    linarith
  · simp only [pctQ, if_neg hN]
    exact le_refl 0

theorem pctQ_last (N : Nat) (hN : 0 < N) : pctQ N N = 100 := by
  rw [pctQ_eq_floor_form N N hN]
  have hN' : ((N : ℚ)) ≠ 0 := by
    have : (0 : ℚ) < (N : ℚ) := by exact_mod_cast hN
    linarith
  rw [div_self hN', one_mul]
  rw [show ((1000 : ℚ) + 1 / 2) = 2001 / 2 by norm_num]
  rw [show (⌊(2001 / 2 : ℚ)⌋ : Int) = 1000 by
    rw [Int.floor_eq_iff]
    norm_num]
  norm_num

set_option maxRecDepth 2000 in
/-- C2 (amended: the percentages along the significant subsequence are
*non-decreasing* — strict increase fails once more than 1000 significant
events share a rounded value): for every input, with S the subsequence of
events of type `tool_call`/`agent_thinking`/`session_start` and `N = |S|`,
the k-th element of S (1-based) has
`progressPercent = round((k/N)·1000)/10`, the percentages along S are
non-decreasing, and the last element of a non-empty S is exactly 100. -/
theorem progress_assignment (raw : String) :
    (∀ k (h : k < (sigEvents raw).length),
      ((sigEvents raw).get ⟨k, h⟩).progressPercent =
        (⌊((k + 1 : Nat) : ℚ) / ((sigEvents raw).length : ℚ) * 1000 + 1 / 2⌋ : ℚ) / 10) ∧
    (∀ k1 k2 (h1 : k1 < (sigEvents raw).length) (h2 : k2 < (sigEvents raw).length),
      k1 ≤ k2 →
      ((sigEvents raw).get ⟨k1, h1⟩).progressPercent ≤
        ((sigEvents raw).get ⟨k2, h2⟩).progressPercent) ∧
    (∀ h : sigEvents raw ≠ [],
      ((sigEvents raw).getLast h).progressPercent = 100) := by
  have key : ∀ k (h : k < (sigEvents raw).length),
      ((sigEvents raw).get ⟨k, h⟩).progressPercent = pctQ (sigEvents raw).length (k + 1) := by
    intro k h
    have hk1 : k < ((sigEvents raw).map (·.progressPercent)).length := by simpa using h
    have hget := List.get_of_eq (parseRunLog_sig_pp raw) ⟨k, hk1⟩
    rw [List.get_map, List.get_map] at hget
    simp only [List.get_range, Fin.val_mk] at hget
    have harg : pctQ (sigEvents raw).length (1 + k) = pctQ (sigEvents raw).length (k + 1) := by
      congr 1
      omega
    exact hget.trans harg
  refine ⟨?_, ?_, ?_⟩
  · intro k h
    rw [key k h]
    have hN : 0 < (sigEvents raw).length := by omega
    rw [pctQ_eq_floor_form _ _ hN]
  · intro k1 k2 h1 h2 hle
    rw [key k1 h1, key k2 h2]
    exact pctQ_mono _ (by omega)
  · intro h
    have hlen : 0 < (sigEvents raw).length := List.length_pos.mpr h
    rw [List.getLast_eq_get]
    rw [key _ _]
    rw [show (sigEvents raw).length - 1 + 1 = (sigEvents raw).length by omega]
    exact pctQ_last _ hlen

set_option maxRecDepth 2000 in
/-- Witness for C2 at a one-significant-event input: the single thinking
event of `"hello"` ends the sequence at exactly 100. -/
theorem progress_assignment_witness :
    ((sigEvents "hello").getLast (by decide)).progressPercent = 100 :=
  (progress_assignment "hello").2.2 (by decide)

/-- C2 as stated: the proportional formula, *strict* increase along the
significant subsequence, and a final value of 100. -/
def C2Claim (raw : String) : Prop :=
  (∀ k (h : k < (sigEvents raw).length),
    ((sigEvents raw).get ⟨k, h⟩).progressPercent =
      (⌊((k + 1 : Nat) : ℚ) / ((sigEvents raw).length : ℚ) * 1000 + 1 / 2⌋ : ℚ) / 10) ∧
  (∀ k1 k2 (h1 : k1 < (sigEvents raw).length) (h2 : k2 < (sigEvents raw).length),
    k1 < k2 →
    ((sigEvents raw).get ⟨k1, h1⟩).progressPercent <
      ((sigEvents raw).get ⟨k2, h2⟩).progressPercent) ∧
  (∀ h : sigEvents raw ≠ [],
    ((sigEvents raw).getLast h).progressPercent = 100)

/-- A minimal tool-call header line (`─── a | b ─`). -/
def hdrLine : List Char := "─── a | b ─".data

/-- 1001 back-to-back tool-call headers: 1001 significant events, enough
to make two consecutive rounded percentages collide. -/
def bigRaw : String := String.mk (intercalateChar '\n' (List.replicate 1001 hdrLine))

/-- The event each header line produces (before the progress pass). -/
def hdrEvent : RunEvent :=
  { type := RunEventType.tool_call, tool := some "a", extension := some "b", content := "a" }

theorem splitAux_no_sep (sep : Char) :
    ∀ (cs cur : List Char) (acc : List (List Char)), (∀ c ∈ cs, c ≠ sep) →
      splitOnCharAux sep cs cur acc = ((cur.reverse ++ cs) :: acc).reverse := by
  intro cs
  induction cs with
  | nil => intro cur acc _; simp [splitOnCharAux]
  | cons c rest ih =>
    intro cur acc hno
    simp only [splitOnCharAux]
    rw [if_neg (hno c (List.mem_cons_self c rest))]
    rw [ih (c :: cur) acc (fun x hx => hno x (List.mem_cons_of_mem c hx))]
    simp

theorem splitAux_sep_chunk (sep : Char) :
    ∀ (cs : List Char), (∀ c ∈ cs, c ≠ sep) →
      ∀ (rest cur : List Char) (acc : List (List Char)),
        splitOnCharAux sep (cs ++ sep :: rest) cur acc =
          splitOnCharAux sep rest [] ((cur.reverse ++ cs) :: acc) := by
  intro cs
  induction cs with
  | nil =>
    intro _ rest cur acc
    simp [splitOnCharAux]
  | cons c cs' ih =>
    intro hno rest cur acc
    simp only [List.cons_append, splitOnCharAux]
    rw [if_neg (hno c (List.mem_cons_self c cs'))]
    show splitOnCharAux sep (cs' ++ sep :: rest) (c :: cur) acc = _
    rw [ih (fun x hx => hno x (List.mem_cons_of_mem c hx)) rest (c :: cur) acc]
    simp

/-- Splitting the `sep`-intercalation of `n+1` copies of a separator-free
chunk recovers the chunks. -/
theorem splitOnChar_intercalate_replicate (sep : Char) (l : List Char)
    (hno : ∀ c ∈ l, c ≠ sep) :
    ∀ (n : Nat) (acc : List (List Char)),
      splitOnCharAux sep (intercalateChar sep (List.replicate (n + 1) l)) [] acc =
        ((List.replicate (n + 1) l).reverse ++ acc).reverse := by
  intro n
  induction n with
  | zero =>
    intro acc
    show splitOnCharAux sep (intercalateChar sep [l]) [] acc = _
    rw [show intercalateChar sep [l] = l from rfl]
    rw [splitAux_no_sep sep l [] acc hno]
    simp
  | succ n ih =>
    intro acc
    have hint : intercalateChar sep (List.replicate (n + 1 + 1) l) =
        l ++ sep :: intercalateChar sep (List.replicate (n + 1) l) := rfl
    rw [hint, splitAux_sep_chunk sep l hno _ [] acc]
    simp only [List.reverse_nil, List.nil_append]
    rw [ih (l :: acc)]
    rw [show List.replicate (n + 1 + 1) l = l :: List.replicate (n + 1) l from rfl]
    simp

theorem getD_replicate {α : Type} (a d : α) :
    ∀ (n k : Nat), k < n → (List.replicate n a).getD k d = a := by
  intro n
  induction n with
  | zero => intro k h; omega
  | succ n ih =>
    intro k h
    cases k with
    | zero => rfl
    | succ k => exact ih k (by omega)

theorem flushThinking_nil (evs : List RunEvent) : flushThinking evs [] = evs := rfl

/-- One step on the 1001-header input appends one tool-call event. -/
theorem step_hdr (n k : Nat) (evs : List RunEvent) (hk : k < n) :
    step (List.replicate n hdrLine) k evs [] = (k + 1, evs ++ [hdrEvent], []) := by
  have hget : (List.replicate n hdrLine).getD k [] = hdrLine := getD_replicate hdrLine [] n k hk
  have hlen : (List.replicate n hdrLine).length = n := List.length_replicate n hdrLine
  simp only [step, hget]
  rw [if_neg (by decide : ¬ isNoiseLine hdrLine = true)]
  rw [if_neg (by decide : ¬ annotatedStartTest hdrLine = true)]
  rw [if_neg (by decide : ¬ appRunTest hdrLine = true)]
  rw [show sessionStartMatch hdrLine = none from rfl]
  rw [show shellCmdMatch hdrLine = none from rfl]
  rw [show toolHeaderMatch hdrLine = some ("a".data, "b".data) from rfl]
  have hparam : ∀ (fuel j : Nat),
      paramLoop (List.replicate n hdrLine) fuel j [] = (j, []) := by
    intro fuel j
    cases fuel with
    | zero => rfl
    | succ fuel =>
      simp only [paramLoop]
      split
      · rename_i hj
        rw [getD_replicate hdrLine [] n j (by simpa [hlen] using hj)]
        rw [if_neg (by decide : ¬ isNoiseLine hdrLine = true)]
        rw [show toolParamMatch hdrLine = none from rfl]
      · rfl
  have htool : ∀ (t : String) (fuel j : Nat),
      toolOutLoop (List.replicate n hdrLine) t fuel j [] = (j, [], none) := by
    intro t fuel j
    cases fuel with
    | zero => rfl
    | succ fuel =>
      simp only [toolOutLoop]
      split
      · rename_i hj
        rw [getD_replicate hdrLine [] n j (by simpa [hlen] using hj)]
        rw [if_pos (by decide : isStructuralLine hdrLine = true)]
        rfl
      · rfl
  simp only [hparam, htool, flushThinking_nil]
  rfl

/-- The assembled events of the 1001-header input: one tool call per
line. -/
theorem parseLoop_hdr (n : Nat) :
    ∀ (fuel k : Nat) (evs : List RunEvent), n ≤ k + fuel →
      parseLoop (List.replicate n hdrLine) fuel k evs [] =
        evs ++ List.replicate (n - k) hdrEvent := by
  intro fuel
  induction fuel with
  | zero =>
    intro k evs h
    have : n - k = 0 := by omega
    rw [this]
    simp [parseLoop, flushThinking_nil]
  | succ fuel ih =>
    intro k evs h
    simp only [parseLoop]
    by_cases hk : k < (List.replicate n hdrLine).length
    · rw [if_pos hk]
      have hk' : k < n := by simpa using hk
      rw [step_hdr n k evs hk']
      rw [ih (k + 1) (evs ++ [hdrEvent]) (by omega)]
      rw [List.append_assoc]
      congr 1
      rw [show n - k = (n - (k + 1)) + 1 by omega]
      rfl
    · rw [if_neg hk]
      have : n - k = 0 := by simp at hk; omega
      rw [this]
      simp [flushThinking_nil]

theorem filter_replicate_pos {α : Type} (p : α → Bool) (a : α) (hpa : p a = true) :
    ∀ n, (List.replicate n a).filter p = List.replicate n a := by
  intro n
  induction n with
  | zero => rfl
  | succ n ih =>
    rw [show List.replicate (n + 1) a = a :: List.replicate n a from rfl]
    rw [List.filter_cons_of_pos hpa, ih]

theorem sigEvents_bigRaw_len : (sigEvents bigRaw).length = 1001 := by
  have hsplit : splitLines bigRaw = List.replicate 1001 hdrLine := by
    show splitOnChar '\n' (intercalateChar '\n' (List.replicate 1001 hdrLine)) = _
    rw [splitOnChar]
    rw [splitOnChar_intercalate_replicate '\n' hdrLine (by decide) 1000 []]
    simp
  have hloop : parseLoop (splitLines bigRaw) (splitLines bigRaw).length 0 [] [] =
      List.replicate 1001 hdrEvent := by
    rw [hsplit]
    rw [parseLoop_hdr 1001 (List.replicate 1001 hdrLine).length 0 [] (by simp)]
    simp
  have hN0 : ((parseLoop (splitLines bigRaw) (splitLines bigRaw).length 0 [] []).filter
      isSignificant).length = 1001 := by
    rw [hloop, filter_replicate_pos isSignificant hdrEvent (by decide)]
    simp
  have hunfold : sigEvents bigRaw =
      (assignProgress (parseLoop (splitLines bigRaw) (splitLines bigRaw).length 0 [] [])).filter
        isSignificant := rfl
  rw [hunfold]
  set evs0 := parseLoop (splitLines bigRaw) (splitLines bigRaw).length 0 [] []
  show ((progressMap ((evs0.filter isSignificant).length) 0 (indexMap evs0 0)).filter
    isSignificant).length = 1001
  have h1 := congrArg List.length
    (progressMap_sig_pp ((evs0.filter isSignificant).length) (indexMap evs0 0) 0)
  simp only [List.length_map, List.length_range] at h1
  rw [h1, indexMap_sig_length]
  exact hN0

/-- C2 counterexample: on 1001 back-to-back tool-call headers the claimed
*strict* increase fails — significant events 500 and 501 both round to
50.0 (`round(500000/1001 + 1/2) = round(501000/1001 + 1/2) = 500`). -/
theorem progress_strict_increase_fails : ¬ C2Claim bigRaw := by
  intro h
  obtain ⟨hform, hstrict, -⟩ := h
  have hlen := sigEvents_bigRaw_len
  have h499 : 499 < (sigEvents bigRaw).length := by omega
  have h500 : 500 < (sigEvents bigRaw).length := by omega
  have e1 := hform 499 h499
  have e2 := hform 500 h500
  have hlt := hstrict 499 500 h499 h500 (by omega)
  rw [e1, e2, hlen] at hlt
  have f1 : (⌊((499 + 1 : Nat) : ℚ) / ((1001 : Nat) : ℚ) * 1000 + 1 / 2⌋ : Int) = 500 := by
    rw [Int.floor_eq_iff]
    push_cast
    norm_num
  have f2 : (⌊((500 + 1 : Nat) : ℚ) / ((1001 : Nat) : ℚ) * 1000 + 1 / 2⌋ : Int) = 500 := by
    rw [Int.floor_eq_iff]
    push_cast
    norm_num
  rw [f1, f2] at hlt
  exact lt_irrefl _ hlt

end Gooseherd
